import Mathlib

set_option maxRecDepth 4000

/-!
Verification of the restaurant-recommendation pipeline.

Shallow embedding of the Python sources:
  - `phase1_data_pipeline/normalizer.py`  (field normalization, cost parsing)
  - `phase1_data_pipeline/store.py`       (`RestaurantStore.query`)
  - `phase2_api/preferences.py`           (`RecommendPreferences` validators)
  - `phase2_api/filter_service.py`        (`get_recommendations`)
  - `phase2_api/orchestrator.py`          (`recommend`, strict post-filter)
  - `phase2_api/api.py`                   (`recommend_endpoint`)
  - `phase5_enhancements/cache.py`        (request keying, LRU cache)

Strings are modelled as `List Char` (ASCII); Python floats as `ℚ`
(only ordering and equality of parsed numeric values matter here);
Python ints as `Int`/`Nat`; `None` as `Option.none`.
-/

/-! ### Python string primitives -/

/-- The ASCII whitespace characters recognised by Python `str.strip` /
`str.split()`. -/
def isPySpace (c : Char) : Bool :=
  c = ' ' || c = '\t' || c = '\n' || c = '\r' || c = '\x0b' || c = '\x0c'

/-- Python `str.isdigit` per character (ASCII subset): codepoint 48..57. -/
def isDigitCh (c : Char) : Bool :=
  decide (48 ≤ c.toNat) && decide (c.toNat ≤ 57)

/-- Numeric value of an ASCII digit character. -/
def digitVal (c : Char) : Nat := c.toNat - 48

/-- Python `str.strip()`: drop leading and trailing whitespace. -/
def pyStrip (s : List Char) : List Char :=
  ((s.dropWhile isPySpace).reverse.dropWhile isPySpace).reverse

/-- Python `str.lower()` (ASCII). -/
def pyLower (s : List Char) : List Char := s.map Char.toLower

/-- Python `"".join(s.split())`: remove every whitespace character. -/
def stripAllWs (s : List Char) : List Char := s.filter (fun c => !isPySpace c)

/-- Python `str.isdigit`: nonempty and all digits. -/
def pyIsDigit (s : List Char) : Bool := !s.isEmpty && s.all isDigitCh

/-- Value of a digit string read in base 10 (Python `int` on a digit string). -/
def digitsToNat (s : List Char) : Nat :=
  s.foldl (fun a c => a * 10 + digitVal c) 0

/-- Python `str.split(sep)` for a one-character separator: no run collapsing,
an empty input yields one empty field. -/
def splitOnChar (sep : Char) : List Char → List (List Char)
  | [] => [[]]
  | c :: rest =>
    if c = sep then [] :: splitOnChar sep rest
    else
      match splitOnChar sep rest with
      | [] => [[c]]
      | h :: t => (c :: h) :: t

/-- Stable insertion with respect to a boolean total preorder `le`: `x` is
placed after every element strictly before it and before the first tie. -/
def insertOrd {α : Type} (le : α → α → Bool) (x : α) : List α → List α
  | [] => [x]
  | y :: ys => if le y x && !le x y then y :: insertOrd le x ys
               else x :: y :: ys

/-- Stable sort by a boolean total preorder (insertion sort).  Models the
deterministic orderings of the system: SQL `ORDER BY` (ties left
unspecified by SQLite, fixed here as insertion order, which the spec
allows) and Python `sorted` (stable). -/
def sortBy {α : Type} (le : α → α → Bool) : List α → List α
  | [] => []
  | x :: xs => insertOrd le x (sortBy le xs)

/-- The first maximal digit run in a string: Python
`re.search(r"(\d+)", s)`. -/
def firstDigitRun (s : List Char) : Option (List Char) :=
  match s.dropWhile (fun c => !isDigitCh c) with
  | [] => none
  | c :: rest => some ((c :: rest).takeWhile isDigitCh)

/-- Shape of the regex `^\d{1,4}\.\d{3}$`: a maximal leading digit run of
length 1-4, then a literal period, then exactly 3 digits to the end. -/
def periodShape (s : List Char) : Prop :=
  1 ≤ (s.takeWhile isDigitCh).length ∧ (s.takeWhile isDigitCh).length ≤ 4 ∧
  (s.dropWhile isDigitCh).head? = some '.' ∧
  (s.dropWhile isDigitCh).tail.length = 3 ∧
  ∀ c ∈ (s.dropWhile isDigitCh).tail, isDigitCh c = true

instance (s : List Char) : Decidable (periodShape s) := by
  unfold periodShape; infer_instance

/-- The regex test `re.match(r"^\d{1,4}\.\d{3}$", s)` of `_parse_cost`. -/
def matchPeriodThousands (s : List Char) : Bool := decide (periodShape s)

/-! ### `_parse_cost` (normalizer.py lines 49-78)

The input here is the string form of the raw value (`str(value)`); the
`None`/`NaN` float guards of the Python function concern non-string inputs
and are modelled by the `Option` at the call sites. -/

/-- Guard of `_parse_cost` and `_parse_rate`: blank or a `nan`/`null`
literal. -/
def blankOrNanNull (s : List Char) : Bool :=
  s.isEmpty || pyLower s = "nan".toList || pyLower s = "null".toList

/-- Body of `_parse_cost` after the guard, on the stripped string. -/
def parse_cost_core (s : List Char) : Option Nat :=
  if matchPeriodThousands s then
    some (digitsToNat (s.filter (fun c => c ≠ '.')))
  else
    match (splitOnChar ',' s).map pyStrip with
    | [a, b] =>
      if pyIsDigit a && pyIsDigit b then
        if b.length = 3 ∧ a.length ≤ 2 then some (digitsToNat (a ++ b))
        else if b.length = 2 then
          some (digitsToNat a * 100 + digitsToNat b)
        else some (digitsToNat a)
      else (firstDigitRun s).map digitsToNat
    | [a] =>
      if pyIsDigit a then some (digitsToNat a)
      else (firstDigitRun s).map digitsToNat
    | _ => (firstDigitRun s).map digitsToNat

/-- `_parse_cost` from `phase1_data_pipeline/normalizer.py`. -/
def parse_cost (value : List Char) : Option Nat :=
  if blankOrNanNull (pyStrip value) then none
  else parse_cost_core (pyStrip value)

/-! ### The disambiguation chain as the spec words it (claim C1)

The spec (section 4.1 and design note 9) describes `_parse_cost` as an
ordered chain of shape rules, first match wins.  Each rule below returns
`some` exactly on its shape, with the per-shape formula from the spec. -/

/-- Spec rule 1: a string of 1-4 digits, a literal period, then exactly 3
digits parses to the digits concatenated as an integer. -/
def rulePeriod (s : List Char) : Option Nat :=
  if periodShape s then
    some (digitsToNat (s.takeWhile isDigitCh ++ (s.dropWhile isDigitCh).tail))
  else none

/-- Spec rule 2 (Western thousands): a comma pair `a,bbb` with `bbb` exactly
3 digits and `len(a) ≤ 2` parses to `int(a + bbb)`. -/
def ruleWestern (s : List Char) : Option Nat :=
  match (splitOnChar ',' s).map pyStrip with
  | [a, b] =>
    if pyIsDigit a ∧ pyIsDigit b ∧ b.length = 3 ∧ a.length ≤ 2
    then some (digitsToNat (a ++ b)) else none
  | _ => none

/-- Spec rule 3 (regional hundreds): a comma pair `a,bb` with `bb` exactly
2 digits parses to `int(a) * 100 + int(bb)`. -/
def ruleRegional (s : List Char) : Option Nat :=
  match (splitOnChar ',' s).map pyStrip with
  | [a, b] =>
    if pyIsDigit a ∧ pyIsDigit b ∧ b.length = 2
    then some (digitsToNat a * 100 + digitsToNat b) else none
  | _ => none

/-- Spec rule 4 (range): a comma pair of digit segments parses to the first
segment. -/
def ruleRange (s : List Char) : Option Nat :=
  match (splitOnChar ',' s).map pyStrip with
  | [a, b] => if pyIsDigit a ∧ pyIsDigit b then some (digitsToNat a) else none
  | _ => none

/-- Spec rule 5: a pure digit string parses to its integer value. -/
def ruleSingleInt (s : List Char) : Option Nat :=
  if pyIsDigit s then some (digitsToNat s) else none

/-- Spec rule 6: the first embedded digit run anywhere in the string. -/
def ruleDigitRun (s : List Char) : Option Nat :=
  (firstDigitRun s).map digitsToNat

/-- The ordered rule chain on the canonical (stripped) string: first match
wins, no match is `null`. -/
def costRuleChain (s : List Char) : Option Nat :=
  (((((rulePeriod s).or (ruleWestern s)).or (ruleRegional s)).or
    (ruleRange s)).or (ruleSingleInt s)).or (ruleDigitRun s)

/-- Claim C1 reference: the fixed precedence chain of the spec, applied to
the canonicalised (stripped, not a `nan`/`null` literal) input. -/
def specCostChain (value : List Char) : Option Nat :=
  if blankOrNanNull (pyStrip value) then none
  else costRuleChain (pyStrip value)

/-! ### Canonical records and the store query (store.py) -/

/-- A row of the `restaurants` table (store.py schema, lines 14-41).
`rid` is the auto-increment primary key. -/
structure Restaurant where
  rid : Nat
  name : List Char
  address : Option (List Char)
  url : Option (List Char)
  location : Option (List Char)
  listed_in_city : Option (List Char)
  cuisines : Option (List Char)
  rest_type : Option (List Char)
  rate : Option ℚ
  cost_for_two : Option Int
  votes : Option Int
  online_order : Bool
  book_table : Bool
  phone : Option (List Char)
  dish_liked : Option (List Char)
deriving DecidableEq

/-- The optional filters of `RestaurantStore.query` (store.py 148-160). -/
structure QueryParams where
  location : Option (List Char)
  min_rate : Option ℚ
  max_cost : Option Int
  min_cost : Option Int
  cuisine_contains : Option (List Char)
  rest_type : Option (List Char)
  online_order : Option Bool
  book_table : Option Bool
  limit : Nat
deriving DecidableEq

/-- SQLite `TRIM`: strips space characters only. -/
def sqlTrimSpaces (s : List Char) : List Char :=
  ((s.dropWhile (fun c => c = ' ')).reverse.dropWhile (fun c => c = ' ')).reverse

/-- Column-side location normalization of the query:
`REPLACE(LOWER(TRIM(COALESCE(location,''))), ' ', '')`. -/
def sqlLocNorm (v : Option (List Char)) : List Char :=
  ((sqlTrimSpaces (v.getD [])).map Char.toLower).filter (fun c => c ≠ ' ')

/-- Is `p` a contiguous substring of the second list?  Models Python `in`
on strings and SQL `LIKE` with a `%`-wrapped literal pattern (patterns here
are cuisine and category names; wildcard characters inside the user value
are not modelled). -/
def hasSubstr (p : List Char) : List Char → Bool
  | [] => p.isEmpty
  | c :: rest => p.isPrefixOf (c :: rest) || hasSubstr p rest

/-- The `WHERE` clause of `RestaurantStore.query` (store.py 173-221): one
conjunct per provided filter, all ANDed; a blank location or cuisine value
adds no condition; `NULL` rate and cost satisfy the bounds. -/
def sqlMatches (p : QueryParams) (r : Restaurant) : Bool :=
  (match p.location with
   | none => true
   | some l =>
     if l.isEmpty then true
     else if (pyStrip l).isEmpty then true
     else decide (sqlLocNorm r.location = pyLower (stripAllWs (pyStrip l)))) &&
  (match p.min_rate with
   | none => true
   | some x => match r.rate with
     | none => true
     | some v => decide (x ≤ v)) &&
  (match p.max_cost with
   | none => true
   | some y => match r.cost_for_two with
     | none => true
     | some v => decide (v ≤ y)) &&
  (match p.min_cost with
   | none => true
   | some y => match r.cost_for_two with
     | none => true
     | some v => decide (y ≤ v)) &&
  (match p.cuisine_contains with
   | none => true
   | some cu0 =>
     if cu0.isEmpty then true
     else if (pyStrip cu0).isEmpty then true
     else
       let pat := pyLower (stripAllWs (pyStrip cu0))
       let cs := r.cuisines.getD []
       !cs.isEmpty && hasSubstr pat ((cs.map Char.toLower).filter (fun c => c ≠ ' '))) &&
  (match p.rest_type with
   | none => true
   | some t =>
     if t.isEmpty then true
     else match r.rest_type with
       | none => false
       | some v => hasSubstr (pyLower t) (pyLower v)) &&
  (match p.online_order with
   | none => true
   | some b => r.online_order = b) &&
  (match p.book_table with
   | none => true
   | some b => r.book_table = b)

/-- Vote tiebreak of the ordering: `votes IS NULL, votes DESC`. -/
def votesLE (a b : Restaurant) : Bool :=
  match a.votes, b.votes with
  | none, none => true
  | none, some _ => false
  | some _, none => true
  | some va, some vb => if va = vb then true else decide (vb ≤ va)

/-- `ORDER BY rate IS NULL, rate DESC, votes IS NULL, votes DESC` as a total
boolean preorder; used with a stable sort, full ties keep insertion order
(SQLite leaves them unspecified; the spec allows any consistent choice). -/
def rankLE (a b : Restaurant) : Bool :=
  match a.rate, b.rate with
  | none, none => votesLE a b
  | none, some _ => false
  | some _, none => true
  | some ra, some rb => if ra = rb then votesLE a b else decide (rb ≤ ra)

/-- `RestaurantStore.query` (store.py 148-241): filter, order, limit. -/
def storeQuery (store : List Restaurant) (p : QueryParams) : List Restaurant :=
  ((sortBy rankLE (store.filter (fun r => sqlMatches p r))).take p.limit)

/-! ### Validated preferences (preferences.py) -/

/-- `RecommendPreferences` after validation. -/
structure RecommendPreferences where
  location : Option (List Char)
  min_rating : Option ℚ
  min_cost : Option Int
  max_cost : Option Int
  cuisines : Option (List (List Char))
  rest_type : Option (List Char)
  online_order : Option Bool
  book_table : Option Bool
deriving DecidableEq

/-- `normalize_location` validator (preferences.py 24-30). -/
def prefs_normalize_location (v : Option (List Char)) : Option (List Char) :=
  match v with
  | none => none
  | some s => if (pyStrip s).isEmpty then none else some (pyStrip s)

/-- `normalize_cuisines` validator, list branch (preferences.py 56-63):
strip each entry, drop blanks, an empty result is `None`. -/
def prefs_normalize_cuisines (v : Option (List (List Char))) :
    Option (List (List Char)) :=
  match v with
  | none => none
  | some xs =>
    let out := (xs.map pyStrip).filter (fun c => !c.isEmpty)
    if out.isEmpty then none else some out

/-- `normalize_rest_type` validator (preferences.py 69-74). -/
def prefs_normalize_rest_type (v : Option (List Char)) : Option (List Char) :=
  match v with
  | none => none
  | some s => if (pyStrip s).isEmpty then none else some (pyStrip s)

/-- Constructing `RecommendPreferences(...)`: pydantic runs the
`mode="before"` validators on each field.  Numeric fields arrive already
typed at the modelled call sites; their coercion validators pass such
values through unchanged. -/
def mkPreferences (location : Option (List Char)) (min_rating : Option ℚ)
    (min_cost : Option Int) (max_cost : Option Int)
    (cuisines : Option (List (List Char))) (rest_type : Option (List Char))
    (online_order : Option Bool) (book_table : Option Bool) :
    RecommendPreferences where
  location := prefs_normalize_location location
  min_rating := min_rating
  min_cost := min_cost
  max_cost := max_cost
  cuisines := prefs_normalize_cuisines cuisines
  rest_type := prefs_normalize_rest_type rest_type
  online_order := online_order
  book_table := book_table

/-- `RecommendPreferences.to_filter_kwargs` (preferences.py 76-93); absent
kwargs are the `None` defaults of `RestaurantStore.query`. -/
def to_filter_kwargs (prefs : RecommendPreferences) (limit : Nat) : QueryParams where
  location := match prefs.location with
    | some l => if l.isEmpty then none else some l
    | none => none
  min_rate := prefs.min_rating
  min_cost := prefs.min_cost
  max_cost := prefs.max_cost
  cuisine_contains := none
  rest_type := match prefs.rest_type with
    | some t => if t.isEmpty then none else some t
    | none => none
  online_order := prefs.online_order
  book_table := prefs.book_table
  limit := limit

/-! ### Candidate fetch and orchestrator (filter_service.py, orchestrator.py) -/

/-- Inner merge of one per-cuisine query result: append records whose id was
not seen yet (filter_service.py 51-55).  Ids are always present on store
rows, so the `rid is not None` guard of the source is vacuous here. -/
def mergeStep (acc : List Nat × List Restaurant) (part : List Restaurant) :
    List Nat × List Restaurant :=
  part.foldl
    (fun acc r => if r.rid ∈ acc.1 then acc else (r.rid :: acc.1, acc.2 ++ [r]))
    acc

/-- Per-cuisine query loop of `get_recommendations` (filter_service.py
45-58): one store query per cuisine value, merged first-seen by id,
stopping once `top_n` candidates accumulated. -/
def cuisineMergeLoop (store : List Restaurant) (kwargs : QueryParams)
    (top_n : Nat) :
    List (List Char) → List Nat × List Restaurant → List Restaurant
  | [], acc => acc.2
  | c :: rest, acc =>
    let part := storeQuery store { kwargs with cuisine_contains := some c }
    let acc2 := mergeStep acc part
    if top_n ≤ acc2.2.length then acc2.2
    else cuisineMergeLoop store kwargs top_n rest acc2

/-- `get_recommendations` (filter_service.py 20-59). -/
def get_recommendations (store : List Restaurant)
    (preferences : RecommendPreferences) (top_n : Nat) : List Restaurant :=
  let kwargs := to_filter_kwargs preferences (max (top_n * 3) 50)
  match preferences.cuisines with
  | none => (storeQuery store kwargs).take top_n
  | some cs =>
    if cs.isEmpty then (storeQuery store kwargs).take top_n
    else (cuisineMergeLoop store kwargs top_n cs ([], [])).take top_n

/-- `_restaurant_matches_preferences` (orchestrator.py 24-52): the strict
in-process post-filter over the full unrelaxed preference set. -/
def restaurant_matches_preferences (r : Restaurant)
    (prefs : RecommendPreferences) : Bool :=
  (match prefs.location with
   | none => true
   | some l =>
     if l.isEmpty then true
     else decide (pyLower (stripAllWs (pyStrip (r.location.getD []))) =
                  pyLower (stripAllWs l))) &&
  (match prefs.min_rating with
   | none => true
   | some x => match r.rate with
     | none => true
     | some v => !decide (v < x)) &&
  (match prefs.min_cost with
   | none => true
   | some y => match r.cost_for_two with
     | none => true
     | some v => !decide (v < y)) &&
  (match prefs.max_cost with
   | none => true
   | some y => match r.cost_for_two with
     | none => true
     | some v => !decide (y < v)) &&
  (match prefs.cuisines with
   | none => true
   | some cs =>
     if cs.isEmpty then true
     else cs.any (fun c =>
       !c.isEmpty &&
       hasSubstr (pyLower (stripAllWs c))
         (((r.cuisines.getD []).map Char.toLower).filter (fun ch => ch ≠ ' '))))

/-- The relaxation stage 1 preference set (orchestrator.py 93-102): the
`RecommendPreferences` constructor is re-run with `cuisines=None`. -/
def dropCuisines (p : RecommendPreferences) : RecommendPreferences :=
  mkPreferences p.location p.min_rating p.min_cost p.max_cost none
    p.rest_type p.online_order p.book_table

/-- Relaxation stage 2 (orchestrator.py 108-117): also drop `min_rating`. -/
def dropCuisinesRating (p : RecommendPreferences) : RecommendPreferences :=
  mkPreferences p.location none p.min_cost p.max_cost none
    p.rest_type p.online_order p.book_table

/-- Relaxation stage 3 (orchestrator.py 123-132): also drop both cost
bounds. -/
def dropCuisinesRatingCost (p : RecommendPreferences) : RecommendPreferences :=
  mkPreferences p.location none none none none
    p.rest_type p.online_order p.book_table

/-- The orchestrator result `{restaurants, summary, relaxed}`. -/
structure RecommendResult where
  restaurants : List Restaurant
  summary : Option (List Char)
  relaxed : Bool
deriving DecidableEq

/-- `recommend` (orchestrator.py 69-145).  The external summarizer is a
parameter, per the spec an opaque pure collaborator. -/
def recommend
    (summarize : List Restaurant → RecommendPreferences → Option (List Char))
    (store : List Restaurant) (preferences : RecommendPreferences)
    (top_n : Nat) (relax_if_empty : Bool) : RecommendResult :=
  let raw := get_recommendations store preferences top_n
  let filtered0 :=
    (raw.filter (fun r => restaurant_matches_preferences r preferences)).take
      top_n
  let relaxed := filtered0.isEmpty && relax_if_empty
  let f1 := if filtered0.isEmpty && relax_if_empty then
      get_recommendations store (dropCuisines preferences) top_n
    else filtered0
  let f2 := if f1.isEmpty && relax_if_empty then
      get_recommendations store (dropCuisinesRating preferences) top_n
    else f1
  let f3 := if f2.isEmpty && relax_if_empty then
      get_recommendations store (dropCuisinesRatingCost preferences) top_n
    else f2
  { restaurants := f3
    summary := if f3.isEmpty then none else summarize f3 preferences
    relaxed := relaxed }

/-! ### Row normalization (normalizer.py) -/

/-- `_parse_rate` (normalizer.py 32-46): first decimal number in the
string (regex `(\d+\.?\d*)`), kept when within `[0, 5]`. -/
def parse_rate (value : List Char) : Option ℚ :=
  let s := pyStrip value
  if s.isEmpty || pyLower s = "nan".toList || pyLower s = "null".toList then
    none
  else
    match s.dropWhile (fun c => !isDigitCh c) with
    | [] => none
    | c :: rest =>
      let ip := (c :: rest).takeWhile isDigitCh
      let v : ℚ :=
        match (c :: rest).dropWhile isDigitCh with
        | '.' :: r2 =>
          let fr := r2.takeWhile isDigitCh
          (digitsToNat ip : ℚ) + (digitsToNat fr : ℚ) / 10 ^ fr.length
        | _ => (digitsToNat ip : ℚ)
      if 0 ≤ v ∧ v ≤ 5 then some v else none

/-- `_normalize_string` (normalizer.py 81-90): strip, blank to `None`,
truncate to a (truthy) maximum length. -/
def normalize_string (value : Option (List Char)) (max_length : Nat) :
    Option (List Char) :=
  match value with
  | none => none
  | some v =>
    let s := pyStrip v
    if s.isEmpty then none
    else if 0 < max_length ∧ max_length < s.length then some (s.take max_length)
    else some s

/-- `_normalize_location` (normalizer.py 93-96). -/
def normalize_location (value : Option (List Char)) : Option (List Char) :=
  normalize_string value 200

/-- Replace each maximal run of characters satisfying `p` by the single
character `rep`: models `re.sub(r"X+", "Y", s)` for a character class. -/
def collapseRuns (p : Char → Bool) (rep : Char) : List Char → List Char
  | [] => []
  | [c] => if p c then [rep] else [c]
  | c :: d :: rest =>
    if p c && p d then collapseRuns p rep (d :: rest)
    else if p c then rep :: collapseRuns p rep (d :: rest)
    else c :: collapseRuns p rep (d :: rest)

/-- `_normalize_cuisines` (normalizer.py 99-109): collapse comma runs and
whitespace runs, strip, truncate to 500. -/
def normalize_cuisines (value : Option (List Char)) : Option (List Char) :=
  match value with
  | none => none
  | some v =>
    let s0 := pyStrip v
    if s0.isEmpty then none
    else
      let s1 := collapseRuns (fun c => c = ',') ',' s0
      let s2 := pyStrip (collapseRuns isPySpace ' ' s1)
      if s2.isEmpty then none else some (s2.take 500)

/-- `_normalize_bool` (normalizer.py 112-117). -/
def normalize_bool (value : Option (List Char)) : Bool :=
  match value with
  | none => false
  | some v =>
    let s := pyLower (pyStrip v)
    s = "yes".toList || s = "true".toList || s = "1".toList || s = "y".toList

/-- Python `int(str)`: optional surrounding whitespace, optional sign,
nonempty digit run (numeric-literal underscores are not modelled). -/
def pyIntOfString (s0 : List Char) : Option Int :=
  let s := pyStrip s0
  match s with
  | '+' :: r => if pyIsDigit r then some (digitsToNat r : Int) else none
  | '-' :: r => if pyIsDigit r then some (-(digitsToNat r : Int)) else none
  | r => if pyIsDigit r then some (digitsToNat r : Int) else none

/-- `_normalize_votes` (normalizer.py 120-127): `int(value)` or `None`. -/
def normalize_votes (value : Option (List Char)) : Option Int :=
  match value with
  | none => none
  | some v => pyIntOfString v

/-- A raw dataset row: the source columns read by `normalize_row`, each an
optional string (a missing key or null cell is `none`; scalar cells enter
`normalize_row` through `str(value)`). -/
structure RawRow where
  name : Option (List Char)
  address : Option (List Char)
  url : Option (List Char)
  location : Option (List Char)
  listed_in_city : Option (List Char)
  cuisines : Option (List Char)
  rest_type : Option (List Char)
  rate : Option (List Char)
  approx_cost : Option (List Char)
  votes : Option (List Char)
  online_order : Option (List Char)
  book_table : Option (List Char)
  phone : Option (List Char)
  dish_liked : Option (List Char)
deriving DecidableEq

/-- A normalized row, the canonical record before insertion. -/
structure NormalizedRecord where
  name : List Char
  address : Option (List Char)
  url : Option (List Char)
  location : Option (List Char)
  listed_in_city : Option (List Char)
  cuisines : Option (List Char)
  rest_type : Option (List Char)
  rate : Option ℚ
  cost_for_two : Option Nat
  votes : Option Int
  online_order : Bool
  book_table : Bool
  phone : Option (List Char)
  dish_liked : Option (List Char)
deriving DecidableEq

/-- `normalize_row` (normalizer.py 130-173): `None` when the name is
missing or blank after trimming. -/
def normalize_row (row : RawRow) : Option NormalizedRecord :=
  match normalize_string row.name 300 with
  | none => none
  | some name =>
    some {
      name := name
      address := normalize_string row.address 500
      url := normalize_string row.url 600
      location := (normalize_location row.location).or
        (normalize_location row.listed_in_city)
      listed_in_city := (normalize_location row.listed_in_city).or
        (normalize_location row.location)
      cuisines := normalize_cuisines row.cuisines
      rest_type := normalize_string row.rest_type 200
      rate := row.rate.bind parse_rate
      cost_for_two := row.approx_cost.bind parse_cost
      votes := normalize_votes row.votes
      online_order := normalize_bool row.online_order
      book_table := normalize_bool row.book_table
      phone := normalize_string row.phone 50
      dish_liked := normalize_string row.dish_liked 500 }

/-- The dedup key of `normalize_restaurants` for the default
`drop_duplicates_by = ("name", "address")`: missing components compare as
the empty string (`out.get(k) or ""`). -/
def dedupKey (r : NormalizedRecord) : List Char × List Char :=
  (r.name, r.address.getD [])

/-- The accumulation loop of `normalize_restaurants` (normalizer.py
193-201), `seen` holding the key tuples already emitted. -/
def normalizeLoop :
    List RawRow → List (List Char × List Char) → List NormalizedRecord
  | [], _ => []
  | row :: rest, seen =>
    match normalize_row row with
    | none => normalizeLoop rest seen
    | some out =>
      if dedupKey out ∈ seen then normalizeLoop rest seen
      else out :: normalizeLoop rest (dedupKey out :: seen)

/-- `normalize_restaurants` (normalizer.py 176-209) at the default dedupe
keys. -/
def normalize_restaurants (rows : List RawRow) : List NormalizedRecord :=
  normalizeLoop rows []

/-! ### Response cache (phase5_enhancements/cache.py) -/

/-- JSON-like request-body values (the recommend request schema: strings,
numbers, booleans, string lists, null). -/
inductive JValue where
  | jnull : JValue
  | jbool : Bool → JValue
  | jnum : ℚ → JValue
  | jstr : List Char → JValue
  | jarr : List (List Char) → JValue
deriving DecidableEq

/-- Codepoint-lexicographic order on strings (Python `sorted` on `str`). -/
def strLE : List Char → List Char → Bool
  | [], _ => true
  | _ :: _, [] => false
  | x :: xs, y :: ys => if x = y then strLE xs ys else decide (x.toNat < y.toNat)

/-- Python `sorted` on a list of strings (stable sort). -/
def sortStrings (xs : List (List Char)) : List (List Char) :=
  sortBy strLE xs

/-- `_canonical_params` (cache.py 13-23): omit `None` values, sort the
`cuisines` list, keep everything else; insertion order preserved. -/
def canonical_params : List (List Char × JValue) → List (List Char × JValue)
  | [] => []
  | (k, v) :: rest =>
    match v with
    | JValue.jnull => canonical_params rest
    | JValue.jarr xs =>
      if k = "cuisines".toList then
        (k, JValue.jarr (sortStrings xs)) :: canonical_params rest
      else (k, JValue.jarr xs) :: canonical_params rest
    | _ => (k, v) :: canonical_params rest

/-- `json.dumps(..., sort_keys=True)` sorts the top-level keys. -/
def jKeySort (l : List (List Char × JValue)) : List (List Char × JValue) :=
  sortBy (fun a b => strLE a.1 b.1) l

/-- Decimal digits of a natural number. -/
def natDigits (n : Nat) : List Char := (Nat.repr n).toList

/-- Serialization of one JSON value; the concrete character format is a
faithful-enough stand-in for the `json.dumps` output (string escaping and
float formatting are not modelled; only value structure matters). -/
def jValStr : JValue → List Char
  | JValue.jnull => "null".toList
  | JValue.jbool b => if b then "true".toList else "false".toList
  | JValue.jnum q =>
    natDigits q.num.natAbs ++ (if q.num < 0 then "-".toList else []) ++
      "/".toList ++ natDigits q.den
  | JValue.jstr s => '"' :: s ++ ['"']
  | JValue.jarr xs =>
    '[' :: (",".toList).intercalate (xs.map (fun s => '"' :: s ++ ['"'])) ++
      [']']

/-- Serialization of the key-sorted canonical map: `json.dumps` of an
object. -/
def jsonDump (l : List (List Char × JValue)) : List Char :=
  '\x7b' ::
    (",".toList).intercalate
      (l.map (fun kv => '"' :: kv.1 ++ '"' :: ':' :: jValStr kv.2)) ++ ['\x7d']

/-- `cache_key_from_request` (cache.py 26-30).  `hashlib.sha256(...)` is an
external pure function of the serialized blob, abstracted as a parameter. -/
def cache_key_from_request (sha256hex : List Char → List Char)
    (body : List (List Char × JValue)) : List Char :=
  sha256hex (jsonDump (jKeySort (canonical_params body)))

/-- `RecommendationCache` state (cache.py 33-39): the dict of entries and
the recency list, least recently used first. -/
structure RecommendationCache (V : Type) where
  max_size : Nat
  data : List (List Char × V)
  order : List (List Char)

/-- `RecommendationCache.__init__` (cache.py 36-39): capacity at least 1. -/
def cacheInit (V : Type) (max_size : Nat) : RecommendationCache V :=
  ⟨max 1 max_size, [], []⟩

/-- Python dict lookup on an insertion-ordered association list. -/
def alookup {V : Type} : List (List Char × V) → List Char → Option V
  | [], _ => none
  | (k, v) :: rest, key => if k = key then some v else alookup rest key

/-- Python dict value update: in place, position preserved. -/
def aupdate {V : Type} :
    List (List Char × V) → List Char → V → List (List Char × V)
  | [], _, _ => []
  | (k, v) :: rest, key, nv =>
    if k = key then (k, nv) :: rest else (k, v) :: aupdate rest key nv

/-- Python dict `del`: remove the (unique) binding of a key. -/
def aerase {V : Type} : List (List Char × V) → List Char → List (List Char × V)
  | [], _ => []
  | (k, v) :: rest, key => if k = key then rest else (k, v) :: aerase rest key

/-- `RecommendationCache.get` (cache.py 41-49): a hit moves the key to the
most-recent end of the order list. -/
def cache_get {V : Type} (c : RecommendationCache V) (key : List Char) :
    Option V × RecommendationCache V :=
  match alookup c.data key with
  | none => (none, c)
  | some v => (some v, { c with order := (c.order.erase key) ++ [key] })

/-- `RecommendationCache.set` (cache.py 51-59): update refreshes recency;
inserting over capacity first evicts the front (least recent) key of the
order list. -/
def cache_set {V : Type} (c : RecommendationCache V) (key : List Char)
    (value : V) : RecommendationCache V :=
  if (alookup c.data key).isSome then
    { c with data := aupdate c.data key value
             order := (c.order.erase key) ++ [key] }
  else if c.max_size ≤ c.data.length then
    match c.order with
    | [] => { c with data := c.data ++ [(key, value)], order := [key] }
    | oldest :: rest =>
      { c with data := (aerase c.data oldest) ++ [(key, value)]
               order := rest ++ [key] }
  else
    { c with data := c.data ++ [(key, value)], order := c.order ++ [key] }

/-- The representation invariant of `RecommendationCache`: dict keys are
unique (a dict!) and the recency list holds exactly the stored keys. -/
def CacheInv {V : Type} (c : RecommendationCache V) : Prop :=
  (c.data.map Prod.fst).Nodup ∧ c.order.Perm (c.data.map Prod.fst)

/-! ### The recommend endpoint (api.py) -/

/-- `RecommendRequest` (api.py 40-51), already validated by its own field
constraints. -/
structure RecommendRequest where
  location : Option (List Char)
  min_rating : Option ℚ
  min_cost : Option Int
  max_cost : Option Int
  cuisines : Option (List (List Char))
  rest_type : Option (List Char)
  online_order : Option Bool
  book_table : Option Bool
  top_n : Nat
deriving DecidableEq

/-- `body.model_dump()` (api.py 111): the request as a parameter map, in
field order. -/
def requestBodyDict (b : RecommendRequest) : List (List Char × JValue) :=
  [ ("location".toList,
     match b.location with | none => JValue.jnull | some s => JValue.jstr s),
    ("min_rating".toList,
     match b.min_rating with | none => JValue.jnull | some q => JValue.jnum q),
    ("min_cost".toList,
     match b.min_cost with
     | none => JValue.jnull | some n => JValue.jnum (n : ℚ)),
    ("max_cost".toList,
     match b.max_cost with
     | none => JValue.jnull | some n => JValue.jnum (n : ℚ)),
    ("cuisines".toList,
     match b.cuisines with | none => JValue.jnull | some xs => JValue.jarr xs),
    ("rest_type".toList,
     match b.rest_type with | none => JValue.jnull | some s => JValue.jstr s),
    ("online_order".toList,
     match b.online_order with
     | none => JValue.jnull | some v => JValue.jbool v),
    ("book_table".toList,
     match b.book_table with
     | none => JValue.jnull | some v => JValue.jbool v),
    ("top_n".toList, JValue.jnum (b.top_n : ℚ)) ]

/-- `recommend_endpoint` (api.py 108-162), phase-5 cache path: serve a
cached entry only when its `relaxed` is `False`; otherwise compute with
`relax_if_empty=False` and store the result.  Returns the response and the
updated cache.  Usage analytics have no effect on the response and are
omitted. -/
def recommend_endpoint (sha256hex : List Char → List Char)
    (summarize : List Restaurant → RecommendPreferences → Option (List Char))
    (store : List Restaurant) (cache : RecommendationCache RecommendResult)
    (body : RecommendRequest) :
    RecommendResult × RecommendationCache RecommendResult :=
  let key := cache_key_from_request sha256hex (requestBodyDict body)
  let gc := cache_get cache key
  let compute : Unit → RecommendResult × RecommendationCache RecommendResult :=
    fun _ =>
      let prefs := mkPreferences body.location body.min_rating body.min_cost
        body.max_cost body.cuisines body.rest_type body.online_order
        body.book_table
      let result := recommend summarize store prefs body.top_n false
      (result, cache_set gc.2 key result)
  match gc.1 with
  | some cached => if cached.relaxed = false then (cached, gc.2) else compute ()
  | none => compute ()

/-! ### Preference coercion validators (preferences.py, claim C10) -/

/-- Python `float(str)` on plain decimal literals: optional surrounding
whitespace, optional sign, digits with an optional fractional part
(exponents, `inf` and `nan` literals are outside the data of interest). -/
def pyFloatOfString (s0 : List Char) : Option ℚ :=
  let s := pyStrip s0
  let sgn : ℚ × List Char :=
    match s with
    | '+' :: r => (1, r)
    | '-' :: r => (-1, r)
    | r => (1, r)
  let ip := sgn.2.takeWhile isDigitCh
  match sgn.2.dropWhile isDigitCh with
  | [] => if ip.isEmpty then none else some (sgn.1 * (digitsToNat ip : ℚ))
  | '.' :: fr =>
    if fr.all isDigitCh ∧ ¬(ip.isEmpty ∧ fr.isEmpty) then
      some (sgn.1 *
        ((digitsToNat ip : ℚ) + (digitsToNat fr : ℚ) / 10 ^ fr.length))
    else none
  | _ => none

/-- The `Any` input of the `min_rating` validator. -/
inductive RatingInput where
  | rnone : RatingInput
  | rstr : List Char → RatingInput
  | rnum : ℚ → RatingInput
deriving DecidableEq

/-- The `Any` input of the cost validators. -/
inductive CostInput where
  | cnone : CostInput
  | cstr : List Char → CostInput
  | cint : Int → CostInput
deriving DecidableEq

/-- `coerce_min_rating` validator (preferences.py 32-42): `None`/empty kept
as `None`, a string parsed with `float(...)`, an unparseable string
silently coerced to `None`, numbers passed through. -/
def coerce_min_rating (v : RatingInput) : Option ℚ :=
  match v with
  | RatingInput.rnone => none
  | RatingInput.rstr s => if s.isEmpty then none else pyFloatOfString s
  | RatingInput.rnum q => some q

/-- `coerce_cost` validator for `min_cost`/`max_cost` (preferences.py
44-54): same shape with `int(...)`. -/
def coerce_cost (v : CostInput) : Option Int :=
  match v with
  | CostInput.cnone => none
  | CostInput.cstr s => if s.isEmpty then none else pyIntOfString s
  | CostInput.cint n => some n

/-! ### Claim-side measures (claim C2) -/

/-- Significant digits of a cost string, as claim C2 reads: the digit
characters of the string with leading zeros discarded. -/
def sigDigitCount (s : List Char) : Nat :=
  ((s.filter isDigitCh).dropWhile (fun c => c = '0')).length

/-- The four value-bearing shapes of the cost chain (period-thousands,
comma pair with 3-digit suffix and short first segment, comma pair with
2-digit suffix, pure digit string), on the stripped input. -/
def valueShape (s : List Char) : Bool :=
  matchPeriodThousands s ||
  (match (splitOnChar ',' s).map pyStrip with
   | [a, b] =>
     pyIsDigit a && pyIsDigit b &&
       ((decide (b.length = 3) && decide (a.length ≤ 2)) ||
        decide (b.length = 2))
   | _ => false) ||
  pyIsDigit s

/-! ### Concrete sample data (used by witness instantiations) -/

/-- A summarizer that always declines (the no-backend case). -/
def demoSummarize :
    List Restaurant → RecommendPreferences → Option (List Char) :=
  fun _ _ => none

/-- A sample store row. -/
def demoRest : Restaurant where
  rid := 1
  name := "Jalsa".toList
  address := some "Banashankari, Bangalore".toList
  url := none
  location := some "Banashankari".toList
  listed_in_city := some "Banashankari".toList
  cuisines := some "North Indian, Mughlai, Chinese".toList
  rest_type := some "Casual Dining".toList
  rate := none
  cost_for_two := some 800
  votes := some 775
  online_order := true
  book_table := true
  phone := none
  dish_liked := none

/-- The empty preference set. -/
def demoPrefs : RecommendPreferences :=
  ⟨none, none, none, none, none, none, none, none⟩

/-- Preferences with a rating floor and a cost ceiling. -/
def demoPrefsBounds : RecommendPreferences :=
  ⟨none, some 3, none, some 900, none, none, none, none⟩

/-- Preferences with one cuisine filter. -/
def demoPrefsCuisine : RecommendPreferences :=
  ⟨none, none, none, none, some ["Mughlai".toList], none, none, none⟩

/-- Query with a rating floor. -/
def demoParamsMinRate : QueryParams :=
  ⟨none, some 3, none, none, none, none, none, none, 5⟩

/-- Query with a cost ceiling. -/
def demoParamsMaxCost : QueryParams :=
  ⟨none, none, some 900, none, none, none, none, none, 5⟩

/-- Query with a cuisine filter. -/
def demoParamsCuisine : QueryParams :=
  ⟨none, none, none, none, some "Mughlai".toList, none, none, none, 5⟩

/-- A request body with only a result cap. -/
def demoBody : RecommendRequest :=
  ⟨none, none, none, none, none, none, none, none, 3⟩

/-- A strict (non-relaxed) cached result. -/
def demoStrictResult : RecommendResult := ⟨[], none, false⟩

/-- A cache holding one strict entry under the key `K`. -/
def demoCacheHit : RecommendationCache RecommendResult :=
  ⟨100, [("K".toList, demoStrictResult)], ["K".toList]⟩

/-- The empty response cache. -/
def demoEmptyCache : RecommendationCache RecommendResult := ⟨100, [], []⟩

/-- A raw row whose name is blank after trimming. -/
def demoBlankRow : RawRow where
  name := some "  ".toList
  address := some "Somewhere".toList
  url := none
  location := none
  listed_in_city := none
  cuisines := none
  rest_type := none
  rate := none
  approx_cost := none
  votes := none
  online_order := none
  book_table := none
  phone := none
  dish_liked := none

/-- A valid raw row. -/
def demoRow1 : RawRow where
  name := some "Jalsa".toList
  address := some "Banashankari, Bangalore".toList
  url := none
  location := some "Banashankari".toList
  listed_in_city := none
  cuisines := some "North Indian, Mughlai".toList
  rest_type := some "Casual Dining".toList
  rate := none
  approx_cost := some "800".toList
  votes := some "775".toList
  online_order := some "Yes".toList
  book_table := some "No".toList
  phone := none
  dish_liked := none

/-- A batch with one blank-name row and a duplicated valid row. -/
def demoRows : List RawRow := [demoBlankRow, demoRow1, demoRow1]

/-! ## Theorems -/

/-! ### Generic list and character lemmas -/

theorem dropWhile_head_false {α : Type} {p : α → Bool} :
    ∀ {l : List α} {c rest}, l.dropWhile p = c :: rest → p c = false := by
  intro l
  induction l with
  | nil => intro c rest h; simp [List.dropWhile] at h
  | cons x xs ih =>
    intro c rest h
    by_cases hx : p x
    · rw [List.dropWhile_cons, if_pos hx] at h; exact ih h
    · rw [List.dropWhile_cons, if_neg hx] at h
      cases h
      exact eq_false_of_ne_true hx

theorem dropWhile_self {α : Type} {p : α → Bool} (l : List α) :
    (l.dropWhile p).dropWhile p = l.dropWhile p := by
  cases h : l.dropWhile p with
  | nil => simp
  | cons c rest =>
    rw [List.dropWhile_cons, if_neg]
    rw [dropWhile_head_false h]
    simp

theorem head_eq_of_pref {α : Type} {l t : List α} (h : l <+: t) (hne : l ≠ []) :
    t.head? = l.head? := by
  obtain ⟨r, rfl⟩ := h
  cases l with
  | nil => exact absurd rfl hne
  | cons c cs => simp

theorem pyStrip_idem (s : List Char) : pyStrip (pyStrip s) = pyStrip s := by
  unfold pyStrip
  set t := s.dropWhile isPySpace with ht
  set u := t.reverse.dropWhile isPySpace with hu
  have hpref : u.reverse <+: t := by
    have hsuf : u <:+ t.reverse := hu ▸ List.dropWhile_suffix _
    simpa using List.reverse_prefix.mpr hsuf
  have h1 : u.reverse.dropWhile isPySpace = u.reverse := by
    cases hur : u.reverse with
    | nil => simp
    | cons c cs =>
      have hne : u.reverse ≠ [] := by rw [hur]; simp
      have hh : t.head? = some c := by rw [head_eq_of_pref hpref hne, hur]; rfl
      cases htc : t with
      | nil => rw [htc] at hh; simp at hh
      | cons d ds =>
        rw [htc] at hh
        simp at hh
        have hd : isPySpace d = false := dropWhile_head_false (ht.symm ▸ htc)
        rw [List.dropWhile_cons, if_neg]
        rw [hh] at hd
        rw [hd]
        simp
  rw [h1, List.reverse_reverse, hu, dropWhile_self]

theorem pyStrip_decomp (l : List Char) :
    ∃ pre post, l = pre ++ pyStrip l ++ post ∧
      (∀ c ∈ pre, isPySpace c = true) ∧ (∀ c ∈ post, isPySpace c = true) := by
  unfold pyStrip
  set t := l.dropWhile isPySpace with ht
  set u := t.reverse.dropWhile isPySpace with hu
  refine ⟨l.takeWhile isPySpace, (t.reverse.takeWhile isPySpace).reverse,
    ?_, ?_, ?_⟩
  · have h1 : l.takeWhile isPySpace ++ t = l := by
      rw [ht]; exact List.takeWhile_append_dropWhile _ _
    have h2 : t.reverse.takeWhile isPySpace ++ u = t.reverse := by
      rw [hu]; exact List.takeWhile_append_dropWhile _ _
    have h3 : u.reverse ++ (t.reverse.takeWhile isPySpace).reverse = t := by
      rw [← List.reverse_append, h2, List.reverse_reverse]
    rw [List.append_assoc, h3, h1]
  · intro c hc; exact List.mem_takeWhile_imp hc
  · intro c hc
    rw [List.mem_reverse] at hc
    exact List.mem_takeWhile_imp hc

theorem splitOnChar_ne_nil (sep : Char) (l : List Char) :
    splitOnChar sep l ≠ [] := by
  induction l with
  | nil => simp [splitOnChar]
  | cons c rest ih =>
    unfold splitOnChar
    by_cases h : c = sep
    · simp [h]
    · rw [if_neg h]
      cases hsp : splitOnChar sep rest with
      | nil => simp
      | cons a b => simp

theorem splitOnChar_single {sep : Char} :
    ∀ {l x : List Char}, splitOnChar sep l = [x] → x = l := by
  intro l
  induction l with
  | nil =>
    intro x h
    simp [splitOnChar] at h
    exact h
  | cons c rest ih =>
    intro x h
    unfold splitOnChar at h
    by_cases hc : c = sep
    · rw [if_pos hc] at h
      cases h2 : splitOnChar sep rest with
      | nil => exact absurd h2 (splitOnChar_ne_nil _ _)
      | cons a b => rw [h2] at h; simp at h
    · rw [if_neg hc] at h
      cases h2 : splitOnChar sep rest with
      | nil => exact absurd h2 (splitOnChar_ne_nil _ _)
      | cons a b =>
        rw [h2] at h
        simp at h
        obtain ⟨hx, hb⟩ := h
        subst hb
        have := ih h2
        subst this
        exact hx.symm

theorem splitOnChar_pair {sep : Char} :
    ∀ {l x y : List Char}, splitOnChar sep l = [x, y] → l = x ++ sep :: y := by
  intro l
  induction l with
  | nil => intro x y h; simp [splitOnChar] at h
  | cons c rest ih =>
    intro x y h
    unfold splitOnChar at h
    by_cases hc : c = sep
    · rw [if_pos hc] at h
      simp at h
      obtain ⟨hx, hrest⟩ := h
      have := splitOnChar_single hrest
      subst this hx hc
      simp
    · rw [if_neg hc] at h
      cases h2 : splitOnChar sep rest with
      | nil => exact absurd h2 (splitOnChar_ne_nil _ _)
      | cons a b =>
        rw [h2] at h
        simp at h
        obtain ⟨hx, hb⟩ := h
        subst hb hx
        have := ih h2
        rw [this]
        simp

theorem sep_mem_of_splitOnChar_two {sep : Char} :
    ∀ {l : List Char}, 2 ≤ (splitOnChar sep l).length → sep ∈ l := by
  intro l
  induction l with
  | nil => intro h; simp [splitOnChar] at h
  | cons c rest ih =>
    intro h
    by_cases hc : c = sep
    · rw [hc]; simp
    · unfold splitOnChar at h
      rw [if_neg hc] at h
      cases h2 : splitOnChar sep rest with
      | nil => exact absurd h2 (splitOnChar_ne_nil _ _)
      | cons a b =>
        rw [h2] at h
        simp at h
        have : 2 ≤ (splitOnChar sep rest).length := by
          rw [h2]; simp; omega
        exact List.mem_cons_of_mem _ (ih this)

theorem digitsToNat_go (l : List Char) (n : Nat) :
    l.foldl (fun a c => a * 10 + digitVal c) n =
      n * 10 ^ l.length + digitsToNat l := by
  induction l generalizing n with
  | nil => simp [digitsToNat]
  | cons c rest ih =>
    rw [List.foldl_cons, ih (n * 10 + digitVal c)]
    unfold digitsToNat
    rw [List.foldl_cons, ih (0 * 10 + digitVal c)]
    simp [List.length_cons, digitsToNat]
    ring

theorem digitsToNat_append (a b : List Char) :
    digitsToNat (a ++ b) = digitsToNat a * 10 ^ b.length + digitsToNat b := by
  unfold digitsToNat
  rw [List.foldl_append]
  exact digitsToNat_go b _

theorem digitsToNat_zeros {l : List Char} (h : ∀ c ∈ l, c = '0') :
    digitsToNat l = 0 := by
  induction l with
  | nil => rfl
  | cons c rest ih =>
    have hc := h c (by simp)
    subst hc
    unfold digitsToNat
    rw [List.foldl_cons]
    have : digitVal '0' = 0 := rfl
    rw [this]
    exact ih (fun c hc => h c (by simp [hc]))

theorem digitsToNat_dropZeros (l : List Char) :
    digitsToNat (l.dropWhile (fun c => c = '0')) = digitsToNat l := by
  conv_rhs => rw [← List.takeWhile_append_dropWhile (fun c => decide (c = '0')) l]
  rw [digitsToNat_append]
  have hz : digitsToNat (l.takeWhile (fun c => decide (c = '0'))) = 0 := by
    apply digitsToNat_zeros
    intro c hc
    have := List.mem_takeWhile_imp hc
    exact of_decide_eq_true this
  rw [hz]
  simp

theorem char_toNat_inj {a b : Char} (h : a.toNat = b.toNat) : a = b := by
  apply Char.ext
  apply UInt32.ext
  exact h

theorem digitVal_pos {c : Char} (hd : isDigitCh c = true) (hne : c ≠ '0') :
    1 ≤ digitVal c := by
  unfold isDigitCh at hd
  simp at hd
  have h48 : c.toNat ≠ 48 := by
    intro h
    exact hne (show c = '0' from char_toNat_inj h)
  unfold digitVal
  omega

theorem digitsToNat_head_ge {c : Char} {rest : List Char}
    (hd : isDigitCh c = true) (hne : c ≠ '0') :
    10 ^ rest.length ≤ digitsToNat (c :: rest) := by
  have h1 : digitsToNat (c :: rest) =
      digitVal c * 10 ^ rest.length + digitsToNat rest := by
    have h2 := digitsToNat_append [c] rest
    simpa [digitsToNat, List.foldl_cons] using h2
  rw [h1]
  have := digitVal_pos hd hne
  nlinarith [Nat.zero_le (digitsToNat rest)]

theorem digitsToNat_big {l : List Char} (hall : ∀ c ∈ l, isDigitCh c = true)
    (hlen : 4 ≤ (l.dropWhile (fun c => c = '0')).length) :
    1000 ≤ digitsToNat l := by
  rw [← digitsToNat_dropZeros l]
  cases hdz : l.dropWhile (fun c => c = '0') with
  | nil => rw [hdz] at hlen; simp at hlen
  | cons c rest =>
    rw [hdz] at hlen
    have hc0 : c ≠ '0' := by
      have := dropWhile_head_false hdz
      simpa using this
    have hcd : isDigitCh c = true := by
      apply hall
      have hmem : c ∈ l.dropWhile (fun c => c = '0') := by rw [hdz]; simp
      exact List.IsSuffix.mem hmem (List.dropWhile_suffix _)
    have h1 := @digitsToNat_head_ge c rest hcd hc0
    have h2 : 1000 ≤ 10 ^ rest.length := by
      calc (1000 : Nat) = 10 ^ 3 := by norm_num
        _ ≤ 10 ^ rest.length := by
          apply Nat.pow_le_pow_right (by norm_num)
          rw [List.length_cons] at hlen
          omega
    omega

theorem digitsToNat_pos {l : List Char}
    (hne : l.dropWhile (fun c => c = '0') ≠ [])
    (hall : ∀ c ∈ l, isDigitCh c = true) :
    1 ≤ digitsToNat l := by
  rw [← digitsToNat_dropZeros l]
  cases hdz : l.dropWhile (fun c => c = '0') with
  | nil => exact absurd hdz hne
  | cons c rest =>
    have hc0 : c ≠ '0' := by
      have := dropWhile_head_false hdz
      simpa using this
    have hcd : isDigitCh c = true := by
      apply hall
      have hmem : c ∈ l.dropWhile (fun c => c = '0') := by rw [hdz]; simp
      exact List.IsSuffix.mem hmem (List.dropWhile_suffix _)
    have h1 := @digitsToNat_head_ge c rest hcd hc0
    have h2 : 1 ≤ 10 ^ rest.length := Nat.one_le_pow _ _ (by norm_num)
    omega

theorem ws_not_digit {c : Char} (h : isPySpace c = true) :
    isDigitCh c = false := by
  unfold isPySpace at h
  simp only [Bool.or_eq_true, decide_eq_true_eq] at h
  rcases h with ((((h | h) | h) | h) | h) | h <;> (subst h; decide)

theorem filter_digits_of_ws {l : List Char} (h : ∀ c ∈ l, isPySpace c = true) :
    l.filter isDigitCh = [] := by
  rw [List.filter_eq_nil_iff]
  intro c hc
  rw [ws_not_digit (h c hc)]
  simp

theorem filter_digits_pyStrip (l : List Char) :
    (pyStrip l).filter isDigitCh = l.filter isDigitCh := by
  obtain ⟨pre, post, hdec, hpre, hpost⟩ := pyStrip_decomp l
  conv_rhs => rw [hdec]
  rw [List.filter_append, List.filter_append,
    filter_digits_of_ws hpre, filter_digits_of_ws hpost]
  simp

theorem filter_self_of_digits {l : List Char} {p : Char → Bool}
    (hall : ∀ c ∈ l, isDigitCh c = true)
    (himp : ∀ c, isDigitCh c = true → p c = true) :
    l.filter p = l := by
  rw [List.filter_eq_self]
  intro c hc
  exact himp c (hall c hc)

theorem digit_not_dot {c : Char} (h : isDigitCh c = true) : c ≠ '.' := by
  intro he
  subst he
  exact absurd h (by decide)

theorem pyIsDigit_false_of_comma {s : List Char} (h : ',' ∈ s) :
    pyIsDigit s = false := by
  have h2 : s.all isDigitCh = false := by
    rw [List.all_eq_false]
    exact ⟨',', h, by decide⟩
  simp [pyIsDigit, h2]

/-! ### Claim C1: the cost chain -/

theorem periodShape_decomp {s : List Char} (h : periodShape s) :
    s = s.takeWhile isDigitCh ++ '.' :: (s.dropWhile isDigitCh).tail := by
  obtain ⟨h1, h2, h3, h4, h5⟩ := h
  conv_lhs => rw [← List.takeWhile_append_dropWhile isDigitCh s]
  congr 1
  cases hd : s.dropWhile isDigitCh with
  | nil => rw [hd] at h3; simp at h3
  | cons c t =>
    rw [hd] at h3
    simp at h3
    subst h3
    rfl

theorem filter_ne_dot_of_period {s : List Char} (h : periodShape s) :
    s.filter (fun c => c ≠ '.') =
      s.takeWhile isDigitCh ++ (s.dropWhile isDigitCh).tail := by
  conv_lhs => rw [periodShape_decomp h]
  obtain ⟨h1, h2, h3, h4, h5⟩ := h
  rw [List.filter_append]
  congr 1
  · apply filter_self_of_digits
    · intro c hc; exact List.mem_takeWhile_imp hc
    · intro c hc; exact decide_eq_true (digit_not_dot hc)
  · rw [List.filter_cons]
    rw [if_neg (by decide)]
    apply filter_self_of_digits h5
    intro c hc
    exact decide_eq_true (digit_not_dot hc)

theorem rulePeriod_spec_pos {s : List Char} (h : periodShape s) :
    rulePeriod s = some (digitsToNat (s.filter (fun c => c ≠ '.'))) := by
  unfold rulePeriod
  rw [if_pos h, filter_ne_dot_of_period h]

theorem rulePeriod_spec_neg {s : List Char} (h : ¬periodShape s) :
    rulePeriod s = none := by
  unfold rulePeriod
  rw [if_neg h]

theorem parse_cost_core_eq_chain {s : List Char} (hs : pyStrip s = s) :
    parse_cost_core s = costRuleChain s := by
  unfold parse_cost_core costRuleChain matchPeriodThousands
  by_cases hp : periodShape s
  · rw [if_pos (by simpa using hp), rulePeriod_spec_pos hp]
    rfl
  · rw [if_neg (by simpa using hp), rulePeriod_spec_neg hp]
    cases hL : splitOnChar ',' s with
    | nil => exact absurd hL (splitOnChar_ne_nil _ _)
    | cons p0 t0 =>
      cases t0 with
      | nil =>
        have hp0 : p0 = s := splitOnChar_single hL
        subst hp0
        unfold ruleWestern ruleRegional ruleRange ruleSingleInt ruleDigitRun
        rw [hL]
        simp only [List.map_cons, List.map_nil, hs]
        by_cases hd : pyIsDigit p0
        · simp [hd, Option.or]
        · simp [hd, Option.or]
      | cons p1 t1 =>
        cases t1 with
        | nil =>
          have hdec := splitOnChar_pair hL
          have hcomma : ',' ∈ s := by rw [hdec]; simp
          have hnd : pyIsDigit s = false := pyIsDigit_false_of_comma hcomma
          unfold ruleWestern ruleRegional ruleRange ruleSingleInt ruleDigitRun
          rw [hL]
          simp only [List.map_cons, List.map_nil]
          by_cases ha : pyIsDigit (pyStrip p0)
          · by_cases hb : pyIsDigit (pyStrip p1)
            · by_cases h3 : (pyStrip p1).length = 3 ∧ (pyStrip p0).length ≤ 2
              · simp [ha, hb, h3, Option.or]
              · by_cases h2 : (pyStrip p1).length = 2
                · simp [ha, hb, h3, h2, Option.or]
                · simp [ha, hb, h3, h2, Option.or]
            · simp [ha, hb, Option.or, hnd]
          · simp [ha, Option.or, hnd]
        | cons p2 t2 =>
          have hlen3 : 2 ≤ (splitOnChar ',' s).length := by rw [hL]; simp
          have hnd := pyIsDigit_false_of_comma (sep_mem_of_splitOnChar_two hlen3)
          unfold ruleWestern ruleRegional ruleRange ruleSingleInt ruleDigitRun
          rw [hL]
          simp only [List.map_cons]
          simp [Option.or, hnd]

/-- C1: for every cost input string, `_parse_cost` computes exactly the
fixed first-match-wins disambiguation chain of the spec — period-thousands
(digits concatenated), then Western comma pair `a,bbb` (`int(a+bbb)`), then
regional comma pair `a,bb` (`int(a)*100+int(bb)`), then comma range (first
segment), then pure integer string, then first embedded digit run, else
`null`. -/
theorem C1_parse_cost_follows_spec_chain (value : List Char) :
    parse_cost value = specCostChain value := by
  unfold parse_cost specCostChain
  by_cases hg : blankOrNanNull (pyStrip value)
  · rw [if_pos hg, if_pos hg]
  · rw [if_neg hg, if_neg hg]
    exact parse_cost_core_eq_chain (pyStrip_idem value)

/-! ### Claim C2: no collapse to 1 or 2 -/

theorem band_split {a b : Bool} (h : (a && b) = true) :
    a = true ∧ b = true := by
  rw [Bool.and_eq_true] at h
  exact h

theorem filter_digits_of_period {s : List Char} (h : periodShape s) :
    s.filter isDigitCh =
      s.takeWhile isDigitCh ++ (s.dropWhile isDigitCh).tail := by
  conv_lhs => rw [periodShape_decomp h]
  obtain ⟨h1, h2, h3, h4, h5⟩ := h
  rw [List.filter_append, List.filter_cons]
  rw [if_neg (by decide)]
  congr 1
  · exact filter_self_of_digits (fun c hc => List.mem_takeWhile_imp hc)
      (fun c hc => hc)
  · exact List.filter_eq_self.mpr h5

theorem filter_digits_eq_strip {x : List Char}
    (h : (pyStrip x).all isDigitCh = true) :
    x.filter isDigitCh = pyStrip x := by
  rw [← filter_digits_pyStrip]
  exact List.filter_eq_self.mpr (List.all_eq_true.mp h)

theorem sigDigitCount_pyStrip (l : List Char) :
    sigDigitCount (pyStrip l) = sigDigitCount l := by
  unfold sigDigitCount
  rw [filter_digits_pyStrip]

theorem mem_filter_digits {l : List Char} :
    ∀ c ∈ l.filter isDigitCh, isDigitCh c = true := by
  intro c hc
  exact (List.mem_filter.mp hc).2

theorem sig_big {l : List Char} (h : 4 ≤ sigDigitCount l) :
    1000 ≤ digitsToNat (l.filter isDigitCh) :=
  digitsToNat_big mem_filter_digits h

theorem C2_core {s : List Char} (hs : pyStrip s = s)
    (hsig : 4 ≤ sigDigitCount s) (hshape : valueShape s = true) :
    ∀ n, parse_cost_core s = some n → n ≠ 1 ∧ n ≠ 2 := by
  intro n hn
  unfold parse_cost_core at hn
  by_cases hp : periodShape s
  · rw [if_pos (show matchPeriodThousands s = true from decide_eq_true hp)]
      at hn
    have hval : s.filter (fun c => c ≠ '.') = s.filter isDigitCh := by
      rw [filter_ne_dot_of_period hp, filter_digits_of_period hp]
    rw [hval] at hn
    have hbig := sig_big hsig
    have hne := Option.some_inj.mp hn
    constructor <;> omega
  · rw [if_neg (show ¬matchPeriodThousands s = true by
      simp [matchPeriodThousands, hp])] at hn
    cases hL : splitOnChar ',' s with
    | nil => exact absurd hL (splitOnChar_ne_nil _ _)
    | cons p0 t0 =>
      rw [hL] at hn
      cases t0 with
      | nil =>
        simp only [List.map_cons, List.map_nil] at hn
        have hp0 : p0 = s := splitOnChar_single hL
        rw [hp0, hs] at hn
        by_cases hd : pyIsDigit s
        · rw [if_pos hd] at hn
          have hall : s.all isDigitCh = true := (band_split hd).2
          have hfs : s.filter isDigitCh = s :=
            List.filter_eq_self.mpr (List.all_eq_true.mp hall)
          have hbig := sig_big hsig
          rw [hfs] at hbig
          have hne := Option.some_inj.mp hn
          constructor <;> omega
        · exfalso
          unfold valueShape at hshape
          rw [hL, hp0] at hshape
          simp only [List.map_cons, List.map_nil] at hshape
          simp [matchPeriodThousands, hp, hd] at hshape
      | cons p1 t1 =>
        cases t1 with
        | nil =>
          simp only [List.map_cons, List.map_nil] at hn
          have hdec := splitOnChar_pair hL
          have hcomma : ',' ∈ s := by rw [hdec]; simp
          have hnd := pyIsDigit_false_of_comma hcomma
          by_cases hab : (pyIsDigit (pyStrip p0) && pyIsDigit (pyStrip p1))
            = true
          · rw [if_pos hab] at hn
            obtain ⟨ha, hb⟩ := band_split hab
            have hfilter : s.filter isDigitCh = pyStrip p0 ++ pyStrip p1 := by
              rw [hdec, List.filter_append, List.filter_cons]
              rw [if_neg (by decide)]
              rw [filter_digits_eq_strip ((band_split ha).2)]
              rw [filter_digits_eq_strip ((band_split hb).2)]
            by_cases h3 : (pyStrip p1).length = 3 ∧ (pyStrip p0).length ≤ 2
            · rw [if_pos h3] at hn
              have hne := Option.some_inj.mp hn
              have hbig := sig_big hsig
              rw [hfilter] at hbig
              constructor <;> omega
            · rw [if_neg h3] at hn
              by_cases h2 : (pyStrip p1).length = 2
              · rw [if_pos h2] at hn
                have hne := Option.some_inj.mp hn
                have hsg : 4 ≤
                    ((pyStrip p0 ++ pyStrip p1).dropWhile
                      (fun c => c = '0')).length := by
                  unfold sigDigitCount at hsig
                  rw [hfilter] at hsig
                  exact hsig
                rw [List.dropWhile_append] at hsg
                by_cases hemp :
                    ((pyStrip p0).dropWhile (fun c => c = '0')).isEmpty = true
                · rw [if_pos hemp] at hsg
                  have hle :
                      ((pyStrip p1).dropWhile (fun c => c = '0')).length ≤
                        (pyStrip p1).length :=
                    List.IsSuffix.length_le (List.dropWhile_suffix _)
                  omega
                · rw [if_neg hemp] at hsg
                  have hpos : 1 ≤ digitsToNat (pyStrip p0) := by
                    apply digitsToNat_pos
                    · simpa using hemp
                    · exact List.all_eq_true.mp (band_split ha).2
                  constructor <;> omega
              · rw [if_neg h2] at hn
                exfalso
                unfold valueShape at hshape
                rw [hL] at hshape
                simp only [List.map_cons, List.map_nil] at hshape
                simp [matchPeriodThousands, hp, hnd, ha, hb] at hshape
                rcases hshape with h | h
                · exact h3 h
                · exact h2 h
          · rw [if_neg hab] at hn
            exfalso
            unfold valueShape at hshape
            rw [hL] at hshape
            simp only [List.map_cons, List.map_nil] at hshape
            have hd2 : pyIsDigit (pyStrip p0) = true ∧
                pyIsDigit (pyStrip p1) = true := by
              simp [matchPeriodThousands, hp, hnd] at hshape
              tauto
            simp [hd2.1, hd2.2] at hab
        | cons p2 t2 =>
          exfalso
          have hlen3 : 2 ≤ (splitOnChar ',' s).length := by rw [hL]; simp
          have hnd :=
            pyIsDigit_false_of_comma (sep_mem_of_splitOnChar_two hlen3)
          unfold valueShape at hshape
          rw [hL] at hshape
          simp only [List.map_cons] at hshape
          simp [matchPeriodThousands, hp, hnd] at hshape

/-- C2 counterexample: the range string `"1,0000"` has five significant
digits yet `_parse_cost` returns exactly 1 (the comma fallback takes the
first segment), so the claim as stated fails. -/
theorem C2_counterexample_range_collapse :
    4 ≤ sigDigitCount ("1,0000".toList) ∧
    parse_cost ("1,0000".toList) = some 1 := by
  constructor
  · decide
  · decide

/-- C2 (amended): for every input string with 4 or more significant digits
whose stripped form matches one of the four value shapes of the chain
(period-thousands, Western comma pair, regional comma pair, pure digit
string), `_parse_cost` never returns exactly 1 or 2.  The two fallback
rules (comma range first-segment and first embedded digit run) are
excluded: the counterexample shows they can still collapse such inputs. -/
theorem C2_shape_parse_never_1_or_2 (value : List Char)
    (hsig : 4 ≤ sigDigitCount value)
    (hshape : valueShape (pyStrip value) = true) :
    ∀ n, parse_cost value = some n → n ≠ 1 ∧ n ≠ 2 := by
  intro n hn
  unfold parse_cost at hn
  by_cases hg : blankOrNanNull (pyStrip value)
  · rw [if_pos hg] at hn
    exact absurd hn (by simp)
  · rw [if_neg hg] at hn
    exact C2_core (pyStrip_idem value)
      (by rw [sigDigitCount_pyStrip]; exact hsig) hshape n hn

/-- Witness for the amended C2 at the period-thousands input `"1.000"`. -/
theorem C2_shape_parse_never_1_or_2_witness :
    parse_cost ("1.000".toList) = some 1000 ∧ (1000 ≠ 1 ∧ 1000 ≠ 2) :=
  ⟨by decide,
   C2_shape_parse_never_1_or_2 ("1.000".toList) (by decide) (by decide) 1000
     (by decide)⟩

/-! ### Sorting and query membership -/

theorem insertOrd_perm {α : Type} (le : α → α → Bool) (x : α) (l : List α) :
    List.Perm (insertOrd le x l) (x :: l) := by
  induction l with
  | nil => simp [insertOrd]
  | cons y ys ih =>
    unfold insertOrd
    by_cases h : (le y x && !le x y) = true
    · rw [if_pos h]
      exact (ih.cons y).trans (List.Perm.swap x y ys)
    · rw [if_neg h]

theorem sortBy_perm {α : Type} (le : α → α → Bool) (l : List α) :
    List.Perm (sortBy le l) l := by
  induction l with
  | nil => simp [sortBy]
  | cons x xs ih =>
    exact (insertOrd_perm le x (sortBy le xs)).trans (ih.cons x)

theorem mem_storeQuery {store : List Restaurant} {p : QueryParams}
    {r : Restaurant} (h : r ∈ storeQuery store p) :
    sqlMatches p r = true ∧ r ∈ store := by
  unfold storeQuery at h
  have h1 := List.mem_of_mem_take h
  rw [(sortBy_perm _ _).mem_iff] at h1
  have h2 := List.mem_filter.mp h1
  exact ⟨h2.2, h2.1⟩

/-! ### Claim C3: the relaxed flag and the strict subset -/

theorem recommend_relaxed_eq (summarize :
      List Restaurant → RecommendPreferences → Option (List Char))
    (store : List Restaurant) (prefs : RecommendPreferences) (top_n : Nat)
    (b : Bool) :
    (recommend summarize store prefs top_n b).relaxed =
      ((((get_recommendations store prefs top_n).filter
        (fun r => restaurant_matches_preferences r prefs)).take
          top_n).isEmpty && b) := rfl

theorem recommend_no_relax_restaurants (summarize :
      List Restaurant → RecommendPreferences → Option (List Char))
    (store : List Restaurant) (prefs : RecommendPreferences) (top_n : Nat) :
    (recommend summarize store prefs top_n false).restaurants =
      ((get_recommendations store prefs top_n).filter
        (fun r => restaurant_matches_preferences r prefs)).take top_n := by
  simp [recommend]

/-- C3: the orchestrator reports `relaxed = true` exactly when the caller
allowed relaxation and the strict post-filtered result of step 2 is empty
(in particular also when every relaxation stage still finds nothing, since
the flag is a function of the strict result alone); with
`relax_if_empty = false` the result is exactly the strict post-filtered
list, so every returned record satisfies the full unrelaxed preference set,
and `relaxed` is always `false`. -/
theorem C3_relaxed_iff_strict_empty (summarize :
      List Restaurant → RecommendPreferences → Option (List Char))
    (store : List Restaurant) (prefs : RecommendPreferences) (top_n : Nat) :
    (∀ relax_if_empty : Bool,
      (recommend summarize store prefs top_n relax_if_empty).relaxed =
        ((((get_recommendations store prefs top_n).filter
          (fun r => restaurant_matches_preferences r prefs)).take
            top_n).isEmpty && relax_if_empty)) ∧
    (recommend summarize store prefs top_n false).relaxed = false ∧
    ∀ r ∈ (recommend summarize store prefs top_n false).restaurants,
      restaurant_matches_preferences r prefs = true := by
  refine ⟨fun b => recommend_relaxed_eq summarize store prefs top_n b,
    by rw [recommend_relaxed_eq]; simp, ?_⟩
  intro r hr
  rw [recommend_no_relax_restaurants] at hr
  exact (List.mem_filter.mp (List.mem_of_mem_take hr)).2

/-- Witness for C3 on a one-row store with empty preferences. -/
theorem C3_relaxed_iff_strict_empty_witness :
    (recommend demoSummarize [demoRest] demoPrefs 3 false).relaxed = false ∧
    restaurant_matches_preferences demoRest demoPrefs = true :=
  ⟨(C3_relaxed_iff_strict_empty demoSummarize [demoRest] demoPrefs 3).2.1,
   (C3_relaxed_iff_strict_empty demoSummarize [demoRest] demoPrefs 3).2.2
     demoRest (by decide)⟩

/-! ### Claim C4: null-inclusive rate and cost bounds -/

/-- C4: with `min_rate = X` every record returned by the store query has a
null rate or a rate at least `X`; with `max_cost = Y` a null cost or a cost
at most `Y` (a record with an unset value is never excluded by a bound);
and the same null-inclusive bounds hold in the strict post-filter of the
orchestrator for `min_rating` and `max_cost`. -/
theorem C4_null_inclusive_bounds :
    (∀ (store : List Restaurant) (p : QueryParams) (x : ℚ) (r : Restaurant),
      p.min_rate = some x → r ∈ storeQuery store p →
      r.rate = none ∨ ∃ v, r.rate = some v ∧ x ≤ v) ∧
    (∀ (store : List Restaurant) (p : QueryParams) (y : Int) (r : Restaurant),
      p.max_cost = some y → r ∈ storeQuery store p →
      r.cost_for_two = none ∨ ∃ v, r.cost_for_two = some v ∧ v ≤ y) ∧
    (∀ (prefs : RecommendPreferences) (x : ℚ) (r : Restaurant),
      prefs.min_rating = some x →
      restaurant_matches_preferences r prefs = true →
      r.rate = none ∨ ∃ v, r.rate = some v ∧ x ≤ v) ∧
    (∀ (prefs : RecommendPreferences) (y : Int) (r : Restaurant),
      prefs.max_cost = some y →
      restaurant_matches_preferences r prefs = true →
      r.cost_for_two = none ∨ ∃ v, r.cost_for_two = some v ∧ v ≤ y) := by
  refine ⟨?_, ?_, ?_, ?_⟩
  · intro store p x r hx hr
    have hm := (mem_storeQuery hr).1
    unfold sqlMatches at hm
    obtain ⟨h17, _⟩ := band_split hm
    obtain ⟨h16, _⟩ := band_split h17
    obtain ⟨h15, _⟩ := band_split h16
    obtain ⟨h14, _⟩ := band_split h15
    obtain ⟨h13, _⟩ := band_split h14
    obtain ⟨h12, _⟩ := band_split h13
    obtain ⟨_, hminr⟩ := band_split h12
    rw [hx] at hminr
    cases hrr : r.rate with
    | none => exact Or.inl rfl
    | some v =>
      rw [hrr] at hminr
      exact Or.inr ⟨v, rfl, of_decide_eq_true hminr⟩
  · intro store p y r hy hr
    have hm := (mem_storeQuery hr).1
    unfold sqlMatches at hm
    obtain ⟨h17, _⟩ := band_split hm
    obtain ⟨h16, _⟩ := band_split h17
    obtain ⟨h15, _⟩ := band_split h16
    obtain ⟨h14, _⟩ := band_split h15
    obtain ⟨h13, _⟩ := band_split h14
    obtain ⟨_, hmaxc⟩ := band_split h13
    rw [hy] at hmaxc
    cases hcc : r.cost_for_two with
    | none => exact Or.inl rfl
    | some v =>
      rw [hcc] at hmaxc
      exact Or.inr ⟨v, rfl, of_decide_eq_true hmaxc⟩
  · intro prefs x r hx hm
    unfold restaurant_matches_preferences at hm
    obtain ⟨h14, _⟩ := band_split hm
    obtain ⟨h13, _⟩ := band_split h14
    obtain ⟨h12, _⟩ := band_split h13
    obtain ⟨_, hminr⟩ := band_split h12
    rw [hx] at hminr
    cases hrr : r.rate with
    | none => exact Or.inl rfl
    | some v =>
      rw [hrr] at hminr
      have : ¬(v < x) := by simpa using hminr
      exact Or.inr ⟨v, rfl, le_of_not_lt this⟩
  · intro prefs y r hy hm
    unfold restaurant_matches_preferences at hm
    obtain ⟨h14, _⟩ := band_split hm
    obtain ⟨_, hmaxc⟩ := band_split h14
    rw [hy] at hmaxc
    cases hcc : r.cost_for_two with
    | none => exact Or.inl rfl
    | some v =>
      rw [hcc] at hmaxc
      have : ¬(y < v) := by simpa using hmaxc
      exact Or.inr ⟨v, rfl, le_of_not_lt this⟩

/-- Witness for C4: a null-rate record passes a `min_rate` query and its
cost of 800 passes a `max_cost = 900` query and post-filter. -/
theorem C4_null_inclusive_bounds_witness :
    (demoRest.rate = none ∨ ∃ v, demoRest.rate = some v ∧ (3 : ℚ) ≤ v) ∧
    (demoRest.cost_for_two = none ∨
      ∃ v, demoRest.cost_for_two = some v ∧ v ≤ (900 : Int)) ∧
    (demoRest.cost_for_two = none ∨
      ∃ v, demoRest.cost_for_two = some v ∧ v ≤ (900 : Int)) :=
  ⟨C4_null_inclusive_bounds.1 [demoRest] demoParamsMinRate 3 demoRest rfl
    (by decide),
   C4_null_inclusive_bounds.2.1 [demoRest] demoParamsMaxCost 900 demoRest rfl
    (by decide),
   C4_null_inclusive_bounds.2.2.2 demoPrefsBounds 900 demoRest rfl
    (by decide)⟩

/-! ### Claim C5: the cuisine filter is not null-inclusive -/

theorem pyStrip_nil_of_all_ws {l : List Char}
    (h : ∀ c ∈ l, isPySpace c = true) : pyStrip l = [] := by
  unfold pyStrip
  have h1 : l.dropWhile isPySpace = [] := by
    rw [List.dropWhile_eq_nil_iff]
    exact h
  rw [h1]
  rfl

theorem stripAllWs_strip_ne {x : List Char} (h : pyStrip x ≠ []) :
    stripAllWs (pyStrip x) ≠ [] := by
  intro hz
  apply h
  have hall : ∀ c ∈ pyStrip x, isPySpace c = true := by
    intro c hc
    by_contra hnw
    have hcmem : c ∈ stripAllWs (pyStrip x) :=
      List.mem_filter.mpr ⟨hc, by simpa using hnw⟩
    rw [hz] at hcmem
    simp at hcmem
  have h2 := pyStrip_nil_of_all_ws hall
  rw [pyStrip_idem] at h2
  exact h2

theorem sqlMatches_cuisine_cond {p : QueryParams} {r : Restaurant}
    {cu : List Char} (hcu : p.cuisine_contains = some cu)
    (hm : sqlMatches p r = true) :
    (if cu.isEmpty = true then true
     else if (pyStrip cu).isEmpty = true then true
     else !(r.cuisines.getD []).isEmpty &&
       hasSubstr (pyLower (stripAllWs (pyStrip cu)))
         (((r.cuisines.getD []).map Char.toLower).filter
           (fun c => c ≠ ' '))) = true := by
  unfold sqlMatches at hm
  obtain ⟨h17, _⟩ := band_split hm
  obtain ⟨h16, _⟩ := band_split h17
  obtain ⟨h15, _⟩ := band_split h16
  obtain ⟨_, hcui⟩ := band_split h15
  rw [hcu] at hcui
  exact hcui

theorem matches_cuisines_cond {prefs : RecommendPreferences} {r : Restaurant}
    {cs : List (List Char)} (hcs : prefs.cuisines = some cs)
    (hm : restaurant_matches_preferences r prefs = true) :
    (if cs.isEmpty = true then true
     else cs.any (fun c => !c.isEmpty &&
       hasSubstr (pyLower (stripAllWs c))
         (((r.cuisines.getD []).map Char.toLower).filter
           (fun ch => ch ≠ ' ')))) = true := by
  unfold restaurant_matches_preferences at hm
  obtain ⟨_, hcui⟩ := band_split hm
  rw [hcs] at hcui
  exact hcui

/-- C5: whenever an effective cuisine filter is set, a record whose
`cuisines` field is null or empty never matches — neither in the store
query (whose condition demands a nonempty cuisines column) nor in the
strict post-filter (for validated preference sets, whose cuisine entries
always keep a non-whitespace character); the third part shows the
`cuisines` validator establishes exactly that invariant. -/
theorem C5_cuisine_filter_needs_cuisines :
    (∀ (store : List Restaurant) (p : QueryParams) (cu : List Char)
      (r : Restaurant), p.cuisine_contains = some cu →
      cu.isEmpty = false → (pyStrip cu).isEmpty = false →
      r ∈ storeQuery store p → ∃ c, r.cuisines = some c ∧ c ≠ []) ∧
    (∀ (prefs : RecommendPreferences) (cs : List (List Char))
      (r : Restaurant), prefs.cuisines = some cs → cs.isEmpty = false →
      (∀ c ∈ cs, stripAllWs c ≠ []) →
      restaurant_matches_preferences r prefs = true →
      ∃ c, r.cuisines = some c ∧ c ≠ []) ∧
    (∀ (v : Option (List (List Char))) (cs : List (List Char)),
      prefs_normalize_cuisines v = some cs →
      ∀ c ∈ cs, c ≠ [] ∧ stripAllWs c ≠ []) := by
  refine ⟨?_, ?_, ?_⟩
  · intro store p cu r hcu hne hnes hr
    have hcui := sqlMatches_cuisine_cond hcu (mem_storeQuery hr).1
    rw [if_neg (by simp [hne]), if_neg (by simp [hnes])] at hcui
    obtain ⟨hnn, _⟩ := band_split hcui
    cases hrc : r.cuisines with
    | none => rw [hrc] at hnn; simp at hnn
    | some c =>
      refine ⟨c, rfl, ?_⟩
      intro hc
      rw [hrc, hc] at hnn
      simp at hnn
  · intro prefs cs r hcs hne hnws hm
    have hcui := matches_cuisines_cond hcs hm
    rw [if_neg (by simp [hne])] at hcui
    obtain ⟨c, hc, hcp⟩ := List.any_eq_true.mp hcui
    obtain ⟨_, hsub⟩ := band_split hcp
    cases hrc : r.cuisines with
    | none =>
      exfalso
      rw [hrc] at hsub
      have hnil : pyLower (stripAllWs c) = [] := by
        have hh : (pyLower (stripAllWs c)).isEmpty = true := hsub
        simpa using hh
      exact hnws c hc (by simpa [pyLower] using hnil)
    | some cc =>
      refine ⟨cc, rfl, ?_⟩
      intro hccnil
      rw [hrc, hccnil] at hsub
      have hnil : pyLower (stripAllWs c) = [] := by
        have hh : (pyLower (stripAllWs c)).isEmpty = true := hsub
        simpa using hh
      exact hnws c hc (by simpa [pyLower] using hnil)
  · intro v cs hv c hc
    unfold prefs_normalize_cuisines at hv
    cases v with
    | none => simp at hv
    | some xs =>
      simp only at hv
      by_cases hout : ((xs.map pyStrip).filter (fun c => !c.isEmpty)).isEmpty
        = true
      · rw [if_pos hout] at hv; simp at hv
      · rw [if_neg hout] at hv
        have hcs : cs = (xs.map pyStrip).filter (fun c => !c.isEmpty) :=
          (Option.some_inj.mp hv).symm
        subst hcs
        obtain ⟨hmem, hfil⟩ := List.mem_filter.mp hc
        obtain ⟨x, _, hx⟩ := List.mem_map.mp hmem
        have hcne : c ≠ [] := by
          intro hnil
          rw [hnil] at hfil
          simp at hfil
        refine ⟨hcne, ?_⟩
        rw [← hx]
        exact stripAllWs_strip_ne (by rw [hx]; exact hcne)

/-- Witness for C5 on the sample record and a `Mughlai` cuisine filter. -/
theorem C5_cuisine_filter_needs_cuisines_witness :
    (∃ c, demoRest.cuisines = some c ∧ c ≠ []) ∧
    (∃ c, demoRest.cuisines = some c ∧ c ≠ []) ∧
    ("Mughlai".toList ≠ [] ∧ stripAllWs ("Mughlai".toList) ≠ []) :=
  ⟨C5_cuisine_filter_needs_cuisines.1 [demoRest] demoParamsCuisine
     ("Mughlai".toList) demoRest rfl (by decide) (by decide) (by decide),
   C5_cuisine_filter_needs_cuisines.2.1 demoPrefsCuisine ["Mughlai".toList]
     demoRest rfl (by decide) (by decide) (by decide),
   C5_cuisine_filter_needs_cuisines.2.2 (some [" Mughlai ".toList])
     ["Mughlai".toList] (by decide) ("Mughlai".toList) (by decide)⟩

/-! ### Claim C6: normalization batch, dropped rows, dedup, order -/

theorem normalize_row_none_of_blank_name {row : RawRow}
    (h : row.name = none ∨ ∃ s, row.name = some s ∧ pyStrip s = []) :
    normalize_row row = none := by
  have hns : normalize_string row.name 300 = none := by
    rcases h with h | ⟨s, hs, hblank⟩
    · rw [h]; rfl
    · simp only [normalize_string, hs]
      rw [if_pos (by simp [hblank])]
  unfold normalize_row
  rw [hns]

theorem normalizeLoop_sublist (rows : List RawRow)
    (seen : List (List Char × List Char)) :
    (normalizeLoop rows seen).Sublist (rows.filterMap normalize_row) := by
  induction rows generalizing seen with
  | nil => simp [normalizeLoop]
  | cons row rest ih =>
    cases hn : normalize_row row with
    | none =>
      simp only [normalizeLoop, hn, List.filterMap_cons]
      exact ih seen
    | some out =>
      by_cases hseen : dedupKey out ∈ seen
      · simp only [normalizeLoop, hn, List.filterMap_cons, if_pos hseen]
        exact (ih seen).cons out
      · simp only [normalizeLoop, hn, List.filterMap_cons, if_neg hseen]
        exact (ih (dedupKey out :: seen)).cons₂ out

theorem normalizeLoop_keys (rows : List RawRow)
    (seen : List (List Char × List Char)) :
    ∀ r ∈ normalizeLoop rows seen, dedupKey r ∉ seen := by
  induction rows generalizing seen with
  | nil => simp [normalizeLoop]
  | cons row rest ih =>
    cases hn : normalize_row row with
    | none =>
      simp only [normalizeLoop, hn]
      exact ih seen
    | some out =>
      by_cases hseen : dedupKey out ∈ seen
      · simp only [normalizeLoop, hn, if_pos hseen]
        exact ih seen
      · simp only [normalizeLoop, hn, if_neg hseen]
        intro r hr
        rcases List.mem_cons.mp hr with h | h
        · rw [h]; exact hseen
        · have h2 := ih (dedupKey out :: seen) r h
          intro hmem
          exact h2 (List.mem_cons_of_mem _ hmem)

theorem normalizeLoop_pairwise (rows : List RawRow)
    (seen : List (List Char × List Char)) :
    (normalizeLoop rows seen).Pairwise
      (fun a b => dedupKey a ≠ dedupKey b) := by
  induction rows generalizing seen with
  | nil => simp [normalizeLoop]
  | cons row rest ih =>
    cases hn : normalize_row row with
    | none =>
      simp only [normalizeLoop, hn]
      exact ih seen
    | some out =>
      by_cases hseen : dedupKey out ∈ seen
      · simp only [normalizeLoop, hn, if_pos hseen]
        exact ih seen
      · simp only [normalizeLoop, hn, if_neg hseen]
        refine List.Pairwise.cons ?_ (ih (dedupKey out :: seen))
        intro b hb
        have h2 := normalizeLoop_keys rest (dedupKey out :: seen) b hb
        intro he
        exact h2 (by rw [← he]; exact List.mem_cons_self _ _)

/-- C6: `normalize_restaurants` with the default `(name, address)` dedupe
keys drops every row whose name is absent or blank after trimming, never
returns two records with equal key tuples (missing address compared as the
empty string), and returns the surviving records as a subsequence of the
row-wise normalization — first-seen input order. -/
theorem C6_normalize_restaurants_dedup (rows : List RawRow) :
    (∀ row : RawRow,
      row.name = none ∨ (∃ s, row.name = some s ∧ pyStrip s = []) →
      normalize_row row = none) ∧
    (normalize_restaurants rows).Pairwise
      (fun a b => dedupKey a ≠ dedupKey b) ∧
    (normalize_restaurants rows).Sublist (rows.filterMap normalize_row) :=
  ⟨fun _ h => normalize_row_none_of_blank_name h,
   normalizeLoop_pairwise rows [],
   normalizeLoop_sublist rows []⟩

/-- Witness for C6 on a batch with a blank-name row and a duplicate. -/
theorem C6_normalize_restaurants_dedup_witness :
    normalize_row demoBlankRow = none ∧
    (normalize_restaurants demoRows).Pairwise
      (fun a b => dedupKey a ≠ dedupKey b) ∧
    (normalize_restaurants demoRows).Sublist
      (demoRows.filterMap normalize_row) :=
  ⟨(C6_normalize_restaurants_dedup demoRows).1 demoBlankRow
     (Or.inr ⟨"  ".toList, rfl, by decide⟩),
   (C6_normalize_restaurants_dedup demoRows).2.1,
   (C6_normalize_restaurants_dedup demoRows).2.2⟩

/-! ### Claim C7: canonical request keys -/

theorem strLE_total : ∀ a b : List Char, strLE a b = true ∨ strLE b a = true := by
  intro a
  induction a with
  | nil => intro b; left; rfl
  | cons x xs ih =>
    intro b
    cases b with
    | nil => right; rfl
    | cons y ys =>
      by_cases hxy : x = y
      · subst hxy
        simp only [strLE, if_pos rfl]
        exact ih ys
      · have hne : x.toNat ≠ y.toNat := fun h => hxy (char_toNat_inj h)
        by_cases hlt : x.toNat < y.toNat
        · left
          simp only [strLE, if_neg hxy]
          exact decide_eq_true hlt
        · right
          simp only [strLE, if_neg (Ne.symm hxy)]
          exact decide_eq_true (by omega)

theorem strLE_trans : ∀ a b c : List Char,
    strLE a b = true → strLE b c = true → strLE a c = true := by
  intro a
  induction a with
  | nil => intro b c _ _; rfl
  | cons x xs ih =>
    intro b c hab hbc
    cases b with
    | nil => simp [strLE] at hab
    | cons y ys =>
      cases c with
      | nil => simp [strLE] at hbc
      | cons z zs =>
        simp only [strLE] at hab hbc ⊢
        by_cases hxy : x = y
        · subst hxy
          rw [if_pos rfl] at hab
          by_cases hxz : x = z
          · subst hxz
            rw [if_pos rfl] at hbc ⊢
            exact ih ys zs hab hbc
          · rw [if_neg hxz] at hbc ⊢
            exact hbc
        · rw [if_neg hxy] at hab
          have hlt1 := of_decide_eq_true hab
          by_cases hyz : y = z
          · subst hyz
            rw [if_neg hxy]
            exact hab
          · rw [if_neg hyz] at hbc
            have hlt2 := of_decide_eq_true hbc
            have hxz : x ≠ z := by
              intro h
              subst h
              omega
            rw [if_neg hxz]
            exact decide_eq_true (by omega)

theorem strLE_antisymm : ∀ a b : List Char,
    strLE a b = true → strLE b a = true → a = b := by
  intro a
  induction a with
  | nil =>
    intro b _ hba
    cases b with
    | nil => rfl
    | cons y ys => simp [strLE] at hba
  | cons x xs ih =>
    intro b hab hba
    cases b with
    | nil => simp [strLE] at hab
    | cons y ys =>
      simp only [strLE] at hab hba
      by_cases hxy : x = y
      · subst hxy
        rw [if_pos rfl] at hab hba
        rw [ih ys hab hba]
      · rw [if_neg hxy] at hab
        rw [if_neg (Ne.symm hxy)] at hba
        have h1 := of_decide_eq_true hab
        have h2 := of_decide_eq_true hba
        omega

theorem pairwise_insertOrd {α : Type} {le : α → α → Bool}
    (total : ∀ a b, le a b = true ∨ le b a = true)
    (htrans : ∀ a b c, le a b = true → le b c = true → le a c = true)
    (x : α) : ∀ {l : List α}, l.Pairwise (fun a b => le a b = true) →
    (insertOrd le x l).Pairwise (fun a b => le a b = true) := by
  intro l
  induction l with
  | nil => intro _; simp [insertOrd]
  | cons y ys ih =>
    intro hl
    obtain ⟨hy, hys⟩ := List.pairwise_cons.mp hl
    unfold insertOrd
    by_cases h : (le y x && !le x y) = true
    · rw [if_pos h]
      obtain ⟨hyx, _⟩ := band_split h
      refine List.pairwise_cons.mpr ⟨?_, ih hys⟩
      intro b hb
      rw [(insertOrd_perm le x ys).mem_iff] at hb
      rcases List.mem_cons.mp hb with hbx | hbys
      · rw [hbx]; exact hyx
      · exact hy b hbys
    · rw [if_neg h]
      have hxy : le x y = true := by
        rcases total x y with ht | ht
        · exact ht
        · by_cases hxy2 : le x y = true
          · exact hxy2
          · exfalso
            apply h
            rw [ht, eq_false_of_ne_true hxy2]
            rfl
      refine List.pairwise_cons.mpr ⟨?_, hl⟩
      intro b hb
      rcases List.mem_cons.mp hb with hbx | hbys
      · rw [hbx]; exact hxy
      · exact htrans x y b hxy (hy b hbys)

theorem pairwise_sortBy {α : Type} {le : α → α → Bool}
    (total : ∀ a b, le a b = true ∨ le b a = true)
    (htrans : ∀ a b c, le a b = true → le b c = true → le a c = true)
    (l : List α) :
    (sortBy le l).Pairwise (fun a b => le a b = true) := by
  induction l with
  | nil => simp [sortBy]
  | cons x xs ih => exact pairwise_insertOrd total htrans x ih

theorem sortStrings_perm_eq {l1 l2 : List (List Char)} (h : l1.Perm l2) :
    sortStrings l1 = sortStrings l2 :=
  @List.eq_of_perm_of_sorted (List Char) (fun a b => strLE a b = true)
    ⟨strLE_antisymm⟩ (sortBy strLE l1) (sortBy strLE l2)
    (((sortBy_perm _ l1).trans h).trans (sortBy_perm _ l2).symm)
    (pairwise_sortBy strLE_total strLE_trans l1)
    (pairwise_sortBy strLE_total strLE_trans l2)

theorem canonical_params_append (xs ys : List (List Char × JValue)) :
    canonical_params (xs ++ ys) =
      canonical_params xs ++ canonical_params ys := by
  induction xs with
  | nil => rfl
  | cons kv rest ih =>
    obtain ⟨k, v⟩ := kv
    cases v with
    | jnull => simp [canonical_params, ih]
    | jbool b => simp [canonical_params, ih]
    | jnum q => simp [canonical_params, ih]
    | jstr s => simp [canonical_params, ih]
    | jarr xs2 =>
      simp only [canonical_params, List.cons_append, ih]
      by_cases hk : k = "cuisines".toList
      · simp [hk]
        exact ih
      · rw [if_neg hk, if_neg hk]
        simp [ih]

/-- C7: the request cache key is a deterministic function of the
canonicalized parameters; permuting the `cuisines` list or replacing an
explicitly null parameter by an absent one leaves the key unchanged, for
any hash function over the serialized blob. -/
theorem C7_cache_key_canonical :
    (∀ (sha256hex : List Char → List Char)
      (pre post : List (List Char × JValue)) (l1 l2 : List (List Char)),
      l1.Perm l2 →
      cache_key_from_request sha256hex
        (pre ++ ("cuisines".toList, JValue.jarr l1) :: post) =
      cache_key_from_request sha256hex
        (pre ++ ("cuisines".toList, JValue.jarr l2) :: post)) ∧
    (∀ (sha256hex : List Char → List Char)
      (pre post : List (List Char × JValue)) (k : List Char),
      cache_key_from_request sha256hex (pre ++ (k, JValue.jnull) :: post) =
      cache_key_from_request sha256hex (pre ++ post)) ∧
    (∀ (sha256hex : List Char → List Char)
      (b1 b2 : List (List Char × JValue)),
      canonical_params b1 = canonical_params b2 →
      cache_key_from_request sha256hex b1 =
        cache_key_from_request sha256hex b2) := by
  refine ⟨?_, ?_, ?_⟩
  · intro sha pre post l1 l2 hperm
    unfold cache_key_from_request
    congr 2
    rw [canonical_params_append, canonical_params_append]
    congr 1
    simp [canonical_params, sortStrings_perm_eq hperm]
  · intro sha pre post k
    unfold cache_key_from_request
    congr 2
    rw [canonical_params_append, canonical_params_append]
    congr 1
  · intro sha b1 b2 h
    unfold cache_key_from_request
    rw [h]

/-- Witness for C7: permuted cuisines and null-versus-absent produce equal
keys under the identity hash. -/
theorem C7_cache_key_canonical_witness :
    cache_key_from_request (fun s => s)
      [("location".toList, JValue.jstr "x".toList),
       ("cuisines".toList, JValue.jarr ["a".toList, "b".toList])] =
    cache_key_from_request (fun s => s)
      [("location".toList, JValue.jstr "x".toList),
       ("cuisines".toList, JValue.jarr ["b".toList, "a".toList])] ∧
    cache_key_from_request (fun s => s)
      [("x".toList, JValue.jnull), ("y".toList, JValue.jnum 1)] =
    cache_key_from_request (fun s => s)
      [("y".toList, JValue.jnum 1)] :=
  ⟨C7_cache_key_canonical.1 (fun s => s)
     [("location".toList, JValue.jstr "x".toList)] []
     ["a".toList, "b".toList] ["b".toList, "a".toList] (by decide),
   C7_cache_key_canonical.2.1 (fun s => s)
     [] [("y".toList, JValue.jnum 1)] ("x".toList)⟩

/-! ### Claim C8: LRU cache behavior -/

theorem alookup_none_iff {V : Type} (l : List (List Char × V))
    (k : List Char) :
    alookup l k = none ↔ k ∉ l.map Prod.fst := by
  induction l with
  | nil => simp [alookup]
  | cons kv rest ih =>
    obtain ⟨k0, v0⟩ := kv
    by_cases h : k0 = k
    · subst h
      simp only [alookup, if_pos rfl, List.map_cons, List.mem_cons]
      constructor
      · intro hfalse
        exact absurd hfalse (by simp)
      · intro hn
        exact absurd (Or.inl trivial) hn
    · rw [List.map_cons]
      simp only [alookup, if_neg h, List.mem_cons]
      rw [ih]
      constructor
      · intro hn hor
        rcases hor with he | hm
        · exact h he.symm
        · exact hn hm
      · intro hn hm
        exact hn (Or.inr hm)

theorem mem_keys_of_alookup {V : Type} {l : List (List Char × V)}
    {k : List Char} {v : V} (h : alookup l k = some v) :
    k ∈ l.map Prod.fst := by
  by_contra hmem
  rw [← alookup_none_iff] at hmem
  rw [h] at hmem
  simp at hmem

theorem alookup_append_or {V : Type} (l1 l2 : List (List Char × V))
    (k : List Char) :
    alookup (l1 ++ l2) k = (alookup l1 k).or (alookup l2 k) := by
  induction l1 with
  | nil => simp [alookup]
  | cons kv rest ih =>
    obtain ⟨k0, v0⟩ := kv
    by_cases h : k0 = k
    · simp [alookup, h]
    · simp [alookup, h, ih]

theorem alookup_erase_of_nodup {V : Type} {l : List (List Char × V)}
    (hnd : (l.map Prod.fst).Nodup) (k k' : List Char) :
    alookup (aerase l k) k' = if k' = k then none else alookup l k' := by
  induction l with
  | nil => simp [aerase, alookup]
  | cons kv rest ih =>
    obtain ⟨k0, v0⟩ := kv
    rw [List.map_cons] at hnd
    obtain ⟨hk0, hndr⟩ := List.nodup_cons.mp hnd
    by_cases h : k0 = k
    · subst h
      have he1 : aerase ((k0, v0) :: rest) k0 = rest := by simp [aerase]
      rw [he1]
      by_cases h2 : k' = k0
      · subst h2
        rw [if_pos rfl, alookup_none_iff]
        exact hk0
      · rw [if_neg h2]
        conv_rhs => rw [alookup]
        rw [if_neg (fun he : k0 = k' => h2 he.symm)]
    · have he1 : aerase ((k0, v0) :: rest) k = (k0, v0) :: aerase rest k := by
        simp [aerase, h]
      rw [he1]
      by_cases h3 : k0 = k'
      · subst h3
        conv_lhs => rw [alookup]
        rw [if_pos rfl, if_neg (fun he : k0 = k => h he)]
        conv_rhs => rw [alookup]
        rw [if_pos rfl]
      · conv_lhs => rw [alookup]
        rw [if_neg h3, ih hndr]
        by_cases h4 : k' = k
        · rw [if_pos h4, if_pos h4]
        · rw [if_neg h4, if_neg h4]
          conv_rhs => rw [alookup]
          rw [if_neg h3]

theorem alookup_aupdate {V : Type} {l : List (List Char × V)} {k : List Char}
    {v0 : V} (hp : alookup l k = some v0) (v : V) (k' : List Char) :
    alookup (aupdate l k v) k' = if k' = k then some v else alookup l k' := by
  induction l with
  | nil => simp [alookup] at hp
  | cons kv rest ih =>
    obtain ⟨k0, w⟩ := kv
    by_cases h : k0 = k
    · subst h
      have he1 : aupdate ((k0, w) :: rest) k0 v = (k0, v) :: rest := by
        simp [aupdate]
      rw [he1]
      by_cases h2 : k' = k0
      · subst h2
        conv_lhs => rw [alookup]
        rw [if_pos rfl, if_pos rfl]
      · conv_lhs => rw [alookup]
        rw [if_neg (fun he : k0 = k' => h2 he.symm), if_neg h2]
        conv_rhs => rw [alookup]
        rw [if_neg (fun he : k0 = k' => h2 he.symm)]
    · have he1 : aupdate ((k0, w) :: rest) k v = (k0, w) :: aupdate rest k v := by
        simp [aupdate, h]
      rw [he1]
      have hp2 : alookup rest k = some v0 := by
        rw [alookup, if_neg h] at hp
        exact hp
      by_cases h2 : k0 = k'
      · subst h2
        conv_lhs => rw [alookup]
        rw [if_pos rfl, if_neg (fun he : k0 = k => h he)]
        conv_rhs => rw [alookup]
        rw [if_pos rfl]
      · conv_lhs => rw [alookup]
        rw [if_neg h2, ih hp2]
        by_cases h4 : k' = k
        · rw [if_pos h4, if_pos h4]
        · rw [if_neg h4, if_neg h4]
          conv_rhs => rw [alookup]
          rw [if_neg h2]

theorem aupdate_length {V : Type} (l : List (List Char × V)) (k : List Char)
    (v : V) : (aupdate l k v).length = l.length := by
  induction l with
  | nil => rfl
  | cons kv rest ih =>
    obtain ⟨k0, w⟩ := kv
    by_cases h : k0 = k
    · simp [aupdate, h]
    · simp [aupdate, h, ih]

/-- C8: under the cache invariant — a get of a present key returns its
value and only refreshes its recency; a set of a present key updates the
value and recency in place without evicting; and a set of a fresh key at
capacity evicts exactly the front (least recently accessed) key of the
recency order, keeping every other stored value. -/
theorem C8_lru_eviction {V : Type} (c : RecommendationCache V)
    (hinv : CacheInv c) (k : List Char) (v : V) :
    (∀ v0, alookup c.data k = some v0 →
      cache_get c k =
        (some v0, { c with order := c.order.erase k ++ [k] })) ∧
    (∀ v0, alookup c.data k = some v0 →
      (cache_set c k v).order = c.order.erase k ++ [k] ∧
      alookup (cache_set c k v).data k = some v ∧
      (∀ k', k' ≠ k →
        alookup (cache_set c k v).data k' = alookup c.data k') ∧
      (cache_set c k v).data.length = c.data.length) ∧
    (alookup c.data k = none → c.max_size ≤ c.data.length →
      ∀ o restOrder, c.order = o :: restOrder →
      alookup (cache_set c k v).data o = none ∧
      alookup (cache_set c k v).data k = some v ∧
      (∀ k', k' ≠ o → k' ≠ k →
        alookup (cache_set c k v).data k' = alookup c.data k') ∧
      (cache_set c k v).order = restOrder ++ [k]) := by
  obtain ⟨hnd, hperm⟩ := hinv
  refine ⟨?_, ?_, ?_⟩
  · intro v0 hv0
    unfold cache_get
    rw [hv0]
  · intro v0 hv0
    unfold cache_set
    rw [if_pos (by rw [hv0]; rfl)]
    refine ⟨rfl, ?_, ?_, ?_⟩
    · rw [alookup_aupdate hv0 v k, if_pos rfl]
    · intro k' hk'
      rw [alookup_aupdate hv0 v k', if_neg hk']
    · exact aupdate_length c.data k v
  · intro hnone hcap o restOrder horder
    have hknot : k ∉ c.data.map Prod.fst := (alookup_none_iff _ _).mp hnone
    have homem : o ∈ c.data.map Prod.fst := by
      apply hperm.mem_iff.mp
      rw [horder]
      exact List.mem_cons_self _ _
    have hok : o ≠ k := fun he => hknot (he ▸ homem)
    unfold cache_set
    rw [if_neg (by rw [hnone]; simp), if_pos hcap, horder]
    refine ⟨?_, ?_, ?_, rfl⟩
    · rw [alookup_append_or, alookup_erase_of_nodup hnd o o, if_pos rfl]
      simp only [Option.none_or]
      conv_lhs => rw [alookup]
      rw [if_neg (fun he : k = o => hok he.symm)]
      rfl
    · rw [alookup_append_or, alookup_erase_of_nodup hnd o k]
      by_cases hko : k = o
      · rw [if_pos hko]
        simp only [Option.none_or]
        conv_lhs => rw [alookup]
        rw [if_pos rfl]
      · rw [if_neg hko, hnone]
        simp only [Option.none_or]
        conv_lhs => rw [alookup]
        rw [if_pos rfl]
    · intro k' hko hkk
      rw [alookup_append_or, alookup_erase_of_nodup hnd o k', if_neg hko]
      have hsingle : alookup [(k, v)] k' = none := by
        rw [alookup, if_neg (fun he : k = k' => hkk he.symm)]
        rfl
      rw [hsingle, Option.or_none]

/-- Witness for C8: a two-entry cache at capacity evicts the least
recently used key `a` when `c` is inserted. -/
theorem C8_lru_eviction_witness :
    alookup (cache_set
      (⟨2, [("a".toList, 1), ("b".toList, 2)],
        ["a".toList, "b".toList]⟩ : RecommendationCache Nat)
      ("c".toList) 3).data ("a".toList) = none ∧
    alookup (cache_set
      (⟨2, [("a".toList, 1), ("b".toList, 2)],
        ["a".toList, "b".toList]⟩ : RecommendationCache Nat)
      ("c".toList) 3).data ("c".toList) = some 3 :=
  ⟨((C8_lru_eviction
      (⟨2, [("a".toList, 1), ("b".toList, 2)],
        ["a".toList, "b".toList]⟩ : RecommendationCache Nat)
      ⟨by decide, by decide⟩ ("c".toList) 3).2.2 (by decide) (by decide)
      ("a".toList) ["b".toList] rfl).1,
   ((C8_lru_eviction
      (⟨2, [("a".toList, 1), ("b".toList, 2)],
        ["a".toList, "b".toList]⟩ : RecommendationCache Nat)
      ⟨by decide, by decide⟩ ("c".toList) 3).2.2 (by decide) (by decide)
      ("a".toList) ["b".toList] rfl).2.1⟩

/-! ### Claim C9: the endpoint caches and serves only strict results -/

theorem recommend_strict_relaxed_false (summarize :
      List Restaurant → RecommendPreferences → Option (List Char))
    (store : List Restaurant) (prefs : RecommendPreferences) (top_n : Nat) :
    (recommend summarize store prefs top_n false).relaxed = false := by
  rw [recommend_relaxed_eq]
  simp

theorem cache_get_fst {V : Type} (c : RecommendationCache V)
    (k : List Char) : (cache_get c k).1 = alookup c.data k := by
  unfold cache_get
  cases h : alookup c.data k <;> simp

theorem cache_get_data {V : Type} (c : RecommendationCache V)
    (k : List Char) : (cache_get c k).2.data = c.data := by
  unfold cache_get
  cases h : alookup c.data k <;> simp

theorem mem_aupdate {V : Type} {l : List (List Char × V)} {k : List Char}
    {v : V} : ∀ kv ∈ aupdate l k v, kv ∈ l ∨ kv.2 = v := by
  induction l with
  | nil => simp [aupdate]
  | cons hd rest ih =>
    obtain ⟨k0, w⟩ := hd
    intro kv hkv
    by_cases h : k0 = k
    · rw [aupdate, if_pos h] at hkv
      rcases List.mem_cons.mp hkv with he | hm
      · right; rw [he]
      · left; exact List.mem_cons_of_mem _ hm
    · rw [aupdate, if_neg h] at hkv
      rcases List.mem_cons.mp hkv with he | hm
      · left; rw [he]; exact List.mem_cons_self _ _
      · rcases ih kv hm with h2 | h2
        · left; exact List.mem_cons_of_mem _ h2
        · right; exact h2

theorem mem_aerase {V : Type} {l : List (List Char × V)} {k : List Char} :
    ∀ kv ∈ aerase l k, kv ∈ l := by
  induction l with
  | nil => simp [aerase]
  | cons hd rest ih =>
    obtain ⟨k0, w⟩ := hd
    intro kv hkv
    by_cases h : k0 = k
    · rw [aerase, if_pos h] at hkv
      exact List.mem_cons_of_mem _ hkv
    · rw [aerase, if_neg h] at hkv
      rcases List.mem_cons.mp hkv with he | hm
      · rw [he]; exact List.mem_cons_self _ _
      · exact List.mem_cons_of_mem _ (ih kv hm)

theorem cache_set_mem {V : Type} (c : RecommendationCache V) (k : List Char)
    (v : V) : ∀ kv ∈ (cache_set c k v).data, kv ∈ c.data ∨ kv.2 = v := by
  intro kv hkv
  unfold cache_set at hkv
  by_cases h1 : (alookup c.data k).isSome = true
  · rw [if_pos h1] at hkv
    exact mem_aupdate kv hkv
  · rw [if_neg h1] at hkv
    by_cases h2 : c.max_size ≤ c.data.length
    · rw [if_pos h2] at hkv
      cases horder : c.order with
      | nil =>
        rw [horder] at hkv
        simp only at hkv
        rcases List.mem_append.mp hkv with hm | hm
        · left; exact hm
        · right
          rw [List.mem_singleton.mp hm]
      | cons o rest =>
        rw [horder] at hkv
        simp only at hkv
        rcases List.mem_append.mp hkv with hm | hm
        · left; exact mem_aerase kv hm
        · right
          rw [List.mem_singleton.mp hm]
    · rw [if_neg h2] at hkv
      rcases List.mem_append.mp hkv with hm | hm
      · left; exact hm
      · right
        rw [List.mem_singleton.mp hm]

/-- C9: the recommend endpoint always answers with `relaxed = false`
(freshly computed results are produced with `relax_if_empty=False`); every
entry of the updated cache is either a pre-existing entry or a freshly
stored strict result; and a present cache entry whose `relaxed` is `false`
is served back verbatim. -/
theorem C9_endpoint_strict_cache (sha256hex : List Char → List Char)
    (summarize : List Restaurant → RecommendPreferences → Option (List Char))
    (store : List Restaurant) (cache : RecommendationCache RecommendResult)
    (body : RecommendRequest) :
    ((recommend_endpoint sha256hex summarize store cache body).1.relaxed
      = false) ∧
    (∀ kv ∈ (recommend_endpoint sha256hex summarize store cache body).2.data,
      kv ∈ cache.data ∨ kv.2.relaxed = false) ∧
    (∀ cached, (cache_get cache
        (cache_key_from_request sha256hex (requestBodyDict body))).1
          = some cached →
      cached.relaxed = false →
      (recommend_endpoint sha256hex summarize store cache body).1
        = cached) := by
  refine ⟨?_, ?_, ?_⟩
  · unfold recommend_endpoint
    simp only [cache_get_fst]
    cases hget : alookup cache.data
        (cache_key_from_request sha256hex (requestBodyDict body)) with
    | none =>
      simp only
      exact recommend_strict_relaxed_false summarize store _ body.top_n
    | some cached =>
      simp only
      by_cases hrel : cached.relaxed = false
      · rw [if_pos hrel]
        exact hrel
      · rw [if_neg hrel]
        exact recommend_strict_relaxed_false summarize store _ body.top_n
  · unfold recommend_endpoint
    simp only [cache_get_fst]
    cases hget : alookup cache.data
        (cache_key_from_request sha256hex (requestBodyDict body)) with
    | none =>
      simp only
      intro kv hkv
      rcases cache_set_mem _ _ _ kv hkv with hm | hm
      · left
        rw [cache_get_data] at hm
        exact hm
      · right
        rw [hm]
        exact recommend_strict_relaxed_false summarize store _ body.top_n
    | some cached =>
      simp only
      by_cases hrel : cached.relaxed = false
      · rw [if_pos hrel]
        intro kv hkv
        rw [cache_get_data] at hkv
        exact Or.inl hkv
      · rw [if_neg hrel]
        intro kv hkv
        rcases cache_set_mem _ _ _ kv hkv with hm | hm
        · left
          rw [cache_get_data] at hm
          exact hm
        · right
          rw [hm]
          exact recommend_strict_relaxed_false summarize store _ body.top_n
  · intro cached hget hrel
    unfold recommend_endpoint
    simp only [cache_get_fst]
    rw [cache_get_fst] at hget
    rw [hget]
    simp only
    rw [if_pos hrel]

/-- Witness for C9: a strict cache hit is served, the updated cache keeps
only known-or-strict entries, and a fresh computation reports
`relaxed = false`. -/
theorem C9_endpoint_strict_cache_witness :
    ((recommend_endpoint (fun _ => "K".toList) demoSummarize [demoRest]
        demoEmptyCache demoBody).1.relaxed = false) ∧
    (("K".toList, demoStrictResult) ∈ demoCacheHit.data ∨
      demoStrictResult.relaxed = false) ∧
    ((recommend_endpoint (fun _ => "K".toList) demoSummarize [demoRest]
        demoCacheHit demoBody).1 = demoStrictResult) :=
  ⟨(C9_endpoint_strict_cache (fun _ => "K".toList) demoSummarize [demoRest]
      demoEmptyCache demoBody).1,
   (C9_endpoint_strict_cache (fun _ => "K".toList) demoSummarize [demoRest]
      demoCacheHit demoBody).2.1 ("K".toList, demoStrictResult) (by decide),
   (C9_endpoint_strict_cache (fun _ => "K".toList) demoSummarize [demoRest]
      demoCacheHit demoBody).2.2 demoStrictResult (by decide) (by decide)⟩

/-! ### Claim C10: silent coercion of malformed numeric preferences -/

/-- C10: the `min_rating`, `min_cost` and `max_cost` validators coerce a
string that does not parse as a number — and the empty string, and `None`
— silently to `None` (the bound filter is dropped; the validators return a
value instead of raising). -/
theorem C10_coerce_malformed_to_none :
    (∀ s : List Char, pyFloatOfString s = none →
      coerce_min_rating (RatingInput.rstr s) = none) ∧
    coerce_min_rating (RatingInput.rstr []) = none ∧
    coerce_min_rating RatingInput.rnone = none ∧
    (∀ s : List Char, pyIntOfString s = none →
      coerce_cost (CostInput.cstr s) = none) ∧
    coerce_cost (CostInput.cstr []) = none ∧
    coerce_cost CostInput.cnone = none := by
  refine ⟨?_, rfl, rfl, ?_, rfl, rfl⟩
  · intro s hs
    show (if s.isEmpty = true then none else pyFloatOfString s) = none
    by_cases h : s.isEmpty = true
    · rw [if_pos h]
    · rw [if_neg h]
      exact hs
  · intro s hs
    show (if s.isEmpty = true then none else pyIntOfString s) = none
    by_cases h : s.isEmpty = true
    · rw [if_pos h]
    · rw [if_neg h]
      exact hs

/-- Witness for C10 at the unparseable string `"cheap"`. -/
theorem C10_coerce_malformed_to_none_witness :
    coerce_min_rating (RatingInput.rstr ("cheap".toList)) = none ∧
    coerce_cost (CostInput.cstr ("cheap".toList)) = none :=
  ⟨C10_coerce_malformed_to_none.1 ("cheap".toList) (by decide),
   C10_coerce_malformed_to_none.2.2.2.1 ("cheap".toList) (by decide)⟩
